import Mathlib

/-!
# The `disco` paired-pipe driver (`src/disco-impl.c`)

A shallow embedding of the four file operations of the driver and the
properties proved about them.

* `disco_read` / `disco_write` are embedded as small-step machines over the
  statements that run while `pipe->mutex` is held; a call leaves the mutex only
  inside `c_wait` or at its `epilog`.
* `Chan` puts one reader endpoint and one writer endpoint around one `Pipe` and
  interleaves their steps under the pipe mutex.
* `World` embeds `disco_open` / `disco_release` over the global pairing slot
  `pend_reader`, the waiting nodes, the files and the heap of pipes.

C `int` values are `Int`; the two narrowing conversions of the code
(`int count = ucount`, `int out = *f_pos`) are `toInt32`.  Bytes are `Nat`.
-/

namespace Disco

/-! ## Constants and plain data -/

/-- Source line 46: `#define MAX_SIZE 8`. -/
abbrev MAX_SIZE : Nat := 8

/-- Value of the kernel constant `EINTR`. -/
def EINTR : Int := 4

/-- Value of the kernel constant `EFAULT`. -/
def EFAULT : Int := 14

/-- Source line 49: `enum { OPEN, CLOSED }`. -/
inductive Status where
  | OPEN
  | CLOSED
deriving DecidableEq

/-- Source line 50: `enum { WAITING, READY }`. -/
inductive NodeStatus where
  | WAITING
  | READY
deriving DecidableEq

/-- Conversion of an integer value to a 32-bit C `int` (two's complement wrap), as done by
`int count = ucount` and `int out = *f_pos`. -/
def toInt32 (z : Int) : Int :=
  let m := z % 4294967296
  if m < 2147483648 then m else m - 4294967296

/-- Source lines 53-59: `Pipe`.  The fields `mutex` and `cond` are represented by the `holder`
field of `Chan` and by the wait states of the calls. -/
structure Pipe where
  buffer : Fin MAX_SIZE → Nat
  size : Int
  status_writer : Status
  status_reader : Status

/-- Source lines 121-124: the pipe as initialised by the writer branch of `disco_open`
(`status_writer = OPEN`, `status_reader = CLOSED`, `size = 0`, `memset(buffer, 0, MAX_SIZE)`). -/
def newPipe : Pipe :=
  { buffer := fun _ => 0, size := 0, status_writer := Status.OPEN, status_reader := Status.CLOSED }

/-- The object `pipe->buffer + i` designates: `none` when `i` is outside `0 .. MAX_SIZE-1`
(an out-of-bounds access, undefined behaviour in C). -/
def bufIndex (i : Int) : Option (Fin MAX_SIZE) :=
  if h : 0 ≤ i ∧ i < (MAX_SIZE : Int) then some ⟨i.toNat, by omega⟩ else none

/-- Store of one byte into the ring. -/
def bufSet (b : Fin MAX_SIZE → Nat) (i : Fin MAX_SIZE) (v : Nat) : Fin MAX_SIZE → Nat :=
  fun j => if j = i then v else b j

/-! ## `disco_read` (source lines 192-226) -/

/-- Control points of `disco_read` between `m_lock` and `m_unlock`. -/
inductive RPc where
  /-- at the test of `while (pipe->size==0 && pipe->status_writer == OPEN)`, line 201 -/
  | test
  /-- inside `c_wait`, line 202: the mutex is released -/
  | waiting
  /-- at the test of `for (...; k<count; ...)`, line 211 -/
  | loop
  /-- past `epilog`: the call has returned `count` -/
  | done
  /-- the call indexed the buffer out of bounds -/
  | ub
deriving DecidableEq

/-- Locals of one `disco_read` call.  `dst` is what the call has copied to the user buffer
`buf[0..k)`; `idx` lists the buffer indices the call has used. -/
structure ReadCall where
  count : Int
  out : Int
  k : Nat
  dst : List Nat
  idx : List Int
  pc : RPc

/-- Source lines 195-199: `int count = ucount; int out = *f_pos; m_lock(...)`. -/
def rd_begin (ucount : Nat) (f_pos : Int) : ReadCall :=
  { count := toInt32 (ucount : Int), out := toInt32 f_pos, k := 0, dst := [], idx := [],
    pc := RPc.test }

/-- One step of `disco_read` while it holds the mutex.  `fault` tells whether `copy_to_user`
fails at this step.  The result is the pipe, the file position `*f_pos` and the locals. -/
def rd_step (fault : Bool) (p : Pipe) (f_pos : Int) (t : ReadCall) : Pipe × Int × ReadCall :=
  match t.pc with
  | RPc.test =>
    -- line 201
    if p.size = 0 ∧ p.status_writer = Status.OPEN then
      (p, f_pos, { t with pc := RPc.waiting })
    else
      -- lines 208-209
      (p, f_pos, { t with count := if t.count > p.size then p.size else t.count, pc := RPc.loop })
  | RPc.loop =>
    if (t.k : Int) < t.count then
      -- line 212
      match bufIndex t.out with
      | none => (p, f_pos, { t with idx := t.idx ++ [t.out], pc := RPc.ub })
      | some i =>
        if fault then
          -- lines 213-214
          (p, f_pos, { t with idx := t.idx ++ [t.out], count := -EFAULT, pc := RPc.done })
        else
          -- lines 216-217
          ({ p with size := p.size - 1 }, f_pos,
           { t with idx := t.idx ++ [t.out], dst := t.dst ++ [p.buffer i],
                    out := Int.tmod (t.out + 1) (MAX_SIZE : Int), k := t.k + 1 })
    else
      -- line 219 and the epilog
      (p, t.out, { t with pc := RPc.done })
  | _ => (p, f_pos, t)

/-- Return of `c_wait` at line 202: interrupted (`intr`, lines 203-204) or woken. -/
def rd_wake (intr : Bool) (t : ReadCall) : ReadCall :=
  if intr then { t with count := -EINTR, pc := RPc.done } else { t with pc := RPc.test }

/-- Whether the call is at a point where it holds the mutex and can step. -/
def RPc.running : RPc → Bool
  | RPc.test => true
  | RPc.loop => true
  | _ => false

/-- Steps of `disco_read` up to the next `c_wait` or the return.  `faults k` tells whether
`copy_to_user(buf+k, ...)` fails. -/
def rd_run (faults : Nat → Bool) : Nat → Pipe → Int → ReadCall → Pipe × Int × ReadCall
  | 0, p, f_pos, t => (p, f_pos, t)
  | n + 1, p, f_pos, t =>
    if t.pc.running then
      let r := rd_step (faults t.k) p f_pos t
      rd_run faults n r.1 r.2.1 r.2.2
    else (p, f_pos, t)

/-- The call `disco_read(filp, buf, ucount, f_pos)` from its entry to its first `c_wait` or to
its return.  The loop body runs at most `count` times, so `count + 2` steps are enough. -/
def disco_read (faults : Nat → Bool) (p : Pipe) (f_pos : Int) (ucount : Nat) :
    Pipe × Int × ReadCall :=
  rd_run faults ((toInt32 (ucount : Int)).toNat + 2) p f_pos (rd_begin ucount f_pos)

/-! ## `disco_write` (source lines 228-261) -/

/-- Control points of `disco_write` between `m_lock` and `m_unlock`. -/
inductive WPc where
  /-- at the test of `for (...; k<count; ...)`, line 238 -/
  | loop
  /-- at the test of `while (pipe->size==MAX_SIZE)`, line 239 -/
  | test
  /-- inside `c_wait`, line 241: the mutex is released -/
  | waiting
  /-- past `epilog`: the call has returned `count` -/
  | done
  /-- the call indexed the buffer out of bounds -/
  | ub
deriving DecidableEq

/-- Locals of one `disco_write` call (`inp` is the local `in`).  `stored` lists the bytes the
call has put into the ring; `idx` lists the buffer indices the call has used. -/
structure WriteCall where
  count : Int
  inp : Int
  k : Nat
  stored : List Nat
  idx : List Int
  pc : WPc

/-- Source lines 230-235: `int count = ucount; int in = *f_pos; m_lock(...)`. -/
def wr_begin (ucount : Nat) (f_pos : Int) : WriteCall :=
  { count := toInt32 (ucount : Int), inp := toInt32 f_pos, k := 0, stored := [], idx := [],
    pc := WPc.loop }

/-- One step of `disco_write` while it holds the mutex.  `src` is what `copy_from_user` finds at
`buf+k`: `none` when the copy fails, `some b` for the byte `b`. -/
def wr_step (src : Option Nat) (p : Pipe) (f_pos : Int) (t : WriteCall) :
    Pipe × Int × WriteCall :=
  match t.pc with
  | WPc.loop =>
    -- line 238; line 254 and the epilog when the loop is over
    if (t.k : Int) < t.count then (p, f_pos, { t with pc := WPc.test })
    else (p, t.inp, { t with pc := WPc.done })
  | WPc.test =>
    -- lines 239-241
    if p.size = (MAX_SIZE : Int) then (p, f_pos, { t with pc := WPc.waiting })
    else
      -- line 247
      match bufIndex t.inp with
      | none => (p, f_pos, { t with idx := t.idx ++ [t.inp], pc := WPc.ub })
      | some i =>
        match src with
        | none =>
          -- lines 248-249
          (p, f_pos, { t with idx := t.idx ++ [t.inp], count := -EFAULT, pc := WPc.done })
        | some b =>
          -- lines 251-252
          ({ p with buffer := bufSet p.buffer i b, size := p.size + 1 }, f_pos,
           { t with idx := t.idx ++ [t.inp], stored := t.stored ++ [b],
                    inp := Int.tmod (t.inp + 1) (MAX_SIZE : Int), k := t.k + 1,
                    pc := WPc.loop })
  | _ => (p, f_pos, t)

/-- Return of `c_wait` at line 241: interrupted (`intr`, lines 242-243) or woken. -/
def wr_wake (intr : Bool) (t : WriteCall) : WriteCall :=
  if intr then { t with count := -EINTR, pc := WPc.done } else { t with pc := WPc.test }

/-- Whether the call is at a point where it holds the mutex and can step. -/
def WPc.running : WPc → Bool
  | WPc.loop => true
  | WPc.test => true
  | _ => false

/-- Steps of `disco_write` up to the next `c_wait` or the return.  `user k` is what
`copy_from_user` finds at `buf+k`. -/
def wr_run (user : Nat → Option Nat) : Nat → Pipe → Int → WriteCall → Pipe × Int × WriteCall
  | 0, p, f_pos, t => (p, f_pos, t)
  | n + 1, p, f_pos, t =>
    if t.pc.running then
      let r := wr_step (user t.k) p f_pos t
      wr_run user n r.1 r.2.1 r.2.2
    else (p, f_pos, t)

/-- The call `disco_write(filp, buf, ucount, f_pos)` from its entry to its first `c_wait` or to
its return.  Each byte takes two steps, so `2 * count + 2` steps are enough. -/
def disco_write (user : Nat → Option Nat) (p : Pipe) (f_pos : Int) (ucount : Nat) :
    Pipe × Int × WriteCall :=
  wr_run user (2 * (toInt32 (ucount : Int)).toNat + 2) p f_pos (wr_begin ucount f_pos)

/-- Continuation of a `disco_write` call whose `c_wait` (line 241) returns. -/
def disco_write_resume (user : Nat → Option Nat) (intr : Bool) (p : Pipe) (f_pos : Int)
    (t : WriteCall) : Pipe × Int × WriteCall :=
  wr_run user (2 * t.count.toNat + 2) p f_pos (wr_wake intr t)

/-! ## `disco_release` on the pipe (source lines 167-190) -/

/-- Source lines 172-186: the flag of the closing role is set to `CLOSED`; the second component
tells whether the branch with `kfree(pipe)` was taken (both flags `CLOSED`). -/
def release_pipe (fmode_write fmode_read : Bool) (p : Pipe) : Pipe × Bool :=
  let p1 :=
    if fmode_write then { p with status_writer := Status.CLOSED }
    else if fmode_read then { p with status_reader := Status.CLOSED }
    else p
  (p1, decide (p1.status_reader = Status.CLOSED ∧ p1.status_writer = Status.CLOSED))

/-! ## One channel with its two endpoints -/

/-- The two endpoint roles of a channel. -/
inductive Role where
  | reader
  | writer
deriving DecidableEq

/-- One pipe, the file positions of its reader and writer files, the call in flight on each
file, and the owner of `pipe->mutex`.  `rdone`, `wdone` and `used` accumulate, for the calls
that have returned, the bytes delivered, the bytes stored and the buffer indices used. -/
structure Chan where
  pipe : Pipe
  rpos : Int
  wpos : Int
  rd : Option ReadCall
  wr : Option WriteCall
  holder : Option Role
  freed : Bool
  rdone : List Nat
  wdone : List Nat
  used : List Int

/-- Modelled from the spec: `kmutex.h` (`m_lock`, `m_unlock`, `c_wait`, `c_broadcast`,
`c_signal`) is not part of the sources.  Following the spec (sections 4.2 and 5), a call runs
only while it owns the lock, `c_wait` gives the lock up until the wait returns (woken or
cancelled, with the lock owned again), and every exit path releases the lock.  This function
files the state of the reader after one of its steps: a returned call is retired and the
mutex released, a call in `c_wait` releases the mutex, any other call keeps it. -/
def Chan.rsettle (s : Chan) (p : Pipe) (f_pos : Int) (t : ReadCall) : Chan :=
  match t.pc with
  | RPc.done =>
    { s with pipe := p, rpos := f_pos, rd := none, holder := none,
             rdone := s.rdone ++ t.dst, used := s.used ++ t.idx }
  | RPc.waiting => { s with pipe := p, rpos := f_pos, rd := some t, holder := none }
  | _ => { s with pipe := p, rpos := f_pos, rd := some t, holder := some Role.reader }

/-- Modelled from the spec: the counterpart of `Chan.rsettle` for the writer. -/
def Chan.wsettle (s : Chan) (p : Pipe) (f_pos : Int) (t : WriteCall) : Chan :=
  match t.pc with
  | WPc.done =>
    { s with pipe := p, wpos := f_pos, wr := none, holder := none,
             wdone := s.wdone ++ t.stored, used := s.used ++ t.idx }
  | WPc.waiting => { s with pipe := p, wpos := f_pos, wr := some t, holder := none }
  | _ => { s with pipe := p, wpos := f_pos, wr := some t, holder := some Role.writer }

/-- What can happen next on a channel. -/
inductive Ev where
  /-- the reader file enters `disco_read(…, ucount, …)` and takes the mutex -/
  | rcall (ucount : Nat)
  /-- the read in flight executes its next step; `fault`: `copy_to_user` fails there
  (looked at only by the step that copies a byte) -/
  | rstep (fault : Bool)
  /-- the `c_wait` of the read in flight returns; `intr`: it was cancelled -/
  | rwake (intr : Bool)
  /-- the writer file enters `disco_write(…, ucount, …)` and takes the mutex -/
  | wcall (ucount : Nat)
  /-- the write in flight executes its next step; `src`: what `copy_from_user` yields there
  (looked at only by the step that copies a byte) -/
  | wstep (src : Option Nat)
  /-- the `c_wait` of the write in flight returns; `intr`: it was cancelled -/
  | wwake (intr : Bool)
  /-- `disco_release` on the file of the given role -/
  | close (r : Role)

/-- One transition of the channel; `none` when the event cannot happen in `s` (the mutex is
taken, the file already has a call in flight, the pipe has been freed, ...). -/
def Chan.step (s : Chan) : Ev → Option Chan
  | Ev.rcall ucount =>
    if s.freed = false ∧ s.rd.isNone = true ∧ s.holder = none then
      some { s with rd := some (rd_begin ucount s.rpos), holder := some Role.reader }
    else none
  | Ev.rstep fault =>
    match s.rd with
    | some t =>
      if s.freed = false ∧ s.holder = some Role.reader ∧ t.pc.running = true then
        let r := rd_step fault s.pipe s.rpos t
        some (s.rsettle r.1 r.2.1 r.2.2)
      else none
    | none => none
  | Ev.rwake intr =>
    match s.rd with
    | some t =>
      if s.freed = false ∧ s.holder = none ∧ t.pc = RPc.waiting then
        some (s.rsettle s.pipe s.rpos (rd_wake intr t))
      else none
    | none => none
  | Ev.wcall ucount =>
    if s.freed = false ∧ s.wr.isNone = true ∧ s.holder = none then
      some { s with wr := some (wr_begin ucount s.wpos), holder := some Role.writer }
    else none
  | Ev.wstep src =>
    match s.wr with
    | some t =>
      if s.freed = false ∧ s.holder = some Role.writer ∧ t.pc.running = true then
        let r := wr_step src s.pipe s.wpos t
        some (s.wsettle r.1 r.2.1 r.2.2)
      else none
    | none => none
  | Ev.wwake intr =>
    match s.wr with
    | some t =>
      if s.freed = false ∧ s.holder = none ∧ t.pc = WPc.waiting then
        some (s.wsettle s.pipe s.wpos (wr_wake intr t))
      else none
    | none => none
  | Ev.close r =>
    if s.freed = false ∧ s.holder = none ∧
        (match r with
         | Role.reader => s.rd.isNone
         | Role.writer => s.wr.isNone) = true then
      let q := release_pipe (decide (r = Role.writer)) (decide (r = Role.reader)) s.pipe
      some { s with pipe := q.1, freed := q.2 }
    else none

/-- The channel after a sequence of events; `none` when one of them cannot happen. -/
def Chan.run (s : Chan) : List Ev → Option Chan
  | [] => some s
  | e :: es =>
    match s.step e with
    | some s1 => s1.run es
    | none => none

/-- A channel around pipe `p` with two freshly opened files (both file positions 0). -/
def Chan.start (p : Pipe) : Chan :=
  { pipe := p, rpos := 0, wpos := 0, rd := none, wr := none, holder := none, freed := false,
    rdone := [], wdone := [], used := [] }

/-- All bytes the reads have delivered so far, in order. -/
def Chan.delivered (s : Chan) : List Nat :=
  s.rdone ++ (match s.rd with
    | some t => t.dst
    | none => [])

/-- All bytes the writes have stored so far, in order. -/
def Chan.accepted (s : Chan) : List Nat :=
  s.wdone ++ (match s.wr with
    | some t => t.stored
    | none => [])

/-- All buffer indices used so far. -/
def Chan.indices (s : Chan) : List Int :=
  s.used ++ (match s.rd with
    | some t => t.idx
    | none => []) ++ (match s.wr with
    | some t => t.idx
    | none => [])

/-- The reader's cursor: the local `out` of the read in flight, else the reader file position. -/
def Chan.rcur (s : Chan) : Int :=
  match s.rd with
  | some t => t.out
  | none => s.rpos

/-- The writer's cursor: the local `in` of the write in flight, else the writer file position. -/
def Chan.wcur (s : Chan) : Int :=
  match s.wr with
  | some t => t.inp
  | none => s.wpos

/-- The buffer index that position `n` of the byte stream falls on. -/
def slot (n : Nat) : Fin MAX_SIZE := ⟨n % MAX_SIZE, Nat.mod_lt _ (by decide)⟩

/-- The `n` bytes of the ring that start at index `start`, wrapping at `MAX_SIZE`. -/
def ring (b : Fin MAX_SIZE → Nat) (start : Nat) : Nat → List Nat
  | 0 => []
  | n + 1 => b (slot start) :: ring b (start + 1) n

/-- The queue the spec describes (section 3: a ring located by a cursor and the count `size`,
read in write order): the `size` bytes that start at the reader's cursor. -/
def Chan.queue (s : Chan) : List Nat :=
  ring s.pipe.buffer s.rcur.toNat s.pipe.size.toNat

/-- Events in which no copy fails and no wait is cancelled: every call made of such events
is a successful one. -/
def Ev.clean : Ev → Bool
  | Ev.rstep fault => !fault
  | Ev.rwake intr => !intr
  | Ev.wstep src => src.isSome
  | Ev.wwake intr => !intr
  | _ => true

/-! ## Invariants of a channel -/

/-- The index `i` lies inside the ring buffer. -/
def inRing (i : Int) : Prop := 0 ≤ i ∧ i < 8

/-- A read in flight has its cursor inside the buffer, has used only indices inside the
buffer, is not at an out-of-bounds access and has not returned. -/
def ReadCall.safe (t : ReadCall) : Prop :=
  inRing t.out ∧ t.pc ≠ RPc.ub ∧ t.pc ≠ RPc.done ∧ ∀ i ∈ t.idx, inRing i

/-- The counterpart of `ReadCall.safe` for a write in flight. -/
def WriteCall.safe (t : WriteCall) : Prop :=
  inRing t.inp ∧ t.pc ≠ WPc.ub ∧ t.pc ≠ WPc.done ∧ ∀ i ∈ t.idx, inRing i

/-- Index safety of a channel: both file positions, the cursors of the calls in flight and
all indices used so far lie inside the buffer. -/
def Chan.safe (s : Chan) : Prop :=
  inRing s.rpos ∧ inRing s.wpos ∧ (∀ i ∈ s.used, inRing i) ∧
  (∀ t, s.rd = some t → t.safe) ∧ (∀ t, s.wr = some t → t.safe)

/-- The read in flight is consistent with the pipe: in its copy loop the bytes it still has to
copy are in the pipe, and before the loop it has copied nothing. -/
def ReadCall.sized (t : ReadCall) (p : Pipe) : Prop :=
  (t.pc = RPc.loop → t.count - (t.k : Int) ≤ p.size) ∧
  (t.pc = RPc.test ∨ t.pc = RPc.waiting → t.k = 0)

/-- Size invariant of a channel. -/
def Chan.sized (s : Chan) : Prop :=
  0 ≤ s.pipe.size ∧ s.pipe.size ≤ 8 ∧ ∀ t, s.rd = some t → t.sized s.pipe

/-- The operations of the queue the spec describes: a byte is accepted at the back, or the
byte `b` is delivered from the front. -/
inductive FifoOp where
  | enq (b : Nat)
  | deq (b : Nat)

/-- The queue of the spec (sections 3 and 5: at most `capacity` = 8 bytes are held, and bytes
are read in write order): a byte is accepted only while fewer than 8 are held, and the byte
delivered is the oldest one held.  `none` when the operation is not possible. -/
def Fifo.step (q : List Nat) : FifoOp → Option (List Nat)
  | FifoOp.enq b => if q.length < 8 then some (q ++ [b]) else none
  | FifoOp.deq b =>
    match q with
    | c :: q1 => if c = b then some q1 else none
    | [] => none

/-- The channel refines a FIFO queue: `size` is within `0..8`, the reader's cursor is inside
the buffer, the writer's cursor is `size` places ahead of it in the ring, and the bytes
accepted so far are the bytes delivered so far followed by the queue. -/
def Chan.fifo (s : Chan) : Prop :=
  0 ≤ s.pipe.size ∧ s.pipe.size ≤ 8 ∧ inRing s.rcur ∧
  s.wcur = (s.rcur + s.pipe.size) % 8 ∧
  s.accepted = s.delivered ++ s.queue ∧
  (∀ t, s.rd = some t → t.pc ≠ RPc.ub ∧ t.pc ≠ RPc.done ∧ t.sized s.pipe) ∧
  (∀ t, s.wr = some t → t.pc ≠ WPc.ub ∧ t.pc ≠ WPc.done)

/-- A sample history: `write` of the three bytes 65, 66, 67 (each byte takes the test of the
`for` loop and the store), then `read` with request 2. -/
def sampleEvents : List Ev :=
  [Ev.wcall 3, Ev.wstep (some 65), Ev.wstep (some 65), Ev.wstep (some 66), Ev.wstep (some 66),
   Ev.wstep (some 67), Ev.wstep (some 67), Ev.wstep (some 0),
   Ev.rcall 2, Ev.rstep false, Ev.rstep false, Ev.rstep false, Ev.rstep false]

/-- The channel after the sample history, started on a new pipe. -/
def sampleChan : Chan :=
  ((Chan.start newPipe).run sampleEvents).getD (Chan.start newPipe)

/-- A history in which the writer has to wait: `write` of the nine bytes 1..9 stores eight
bytes and enters `c_wait`; `read` with request 1 takes the first byte; the writer is woken
and stores the ninth byte. -/
def waitingEvents : List Ev :=
  [Ev.wcall 9] ++
  ((List.range 8).map (fun i => [Ev.wstep (some (i + 1)), Ev.wstep (some (i + 1))])).join ++
  [Ev.wstep (some 9), Ev.wstep (some 9),
   Ev.rcall 1, Ev.rstep false, Ev.rstep false, Ev.rstep false,
   Ev.wwake false, Ev.wstep (some 9), Ev.wstep (some 9)]

/-- The channel after `waitingEvents`, started on a new pipe. -/
def waitingChan : Chan :=
  ((Chan.start newPipe).run waitingEvents).getD (Chan.start newPipe)

/-- A history that goes on after the writer has closed: `write` of the three bytes 65, 66, 67,
`disco_release` by the writer, `read` with request 2 (two bytes), `read` with request 2 (the
last byte), `read` with request 5 (end-of-stream, returns 0), `disco_release` by the reader. -/
def drainEvents : List Ev :=
  [Ev.wcall 3, Ev.wstep (some 65), Ev.wstep (some 65), Ev.wstep (some 66), Ev.wstep (some 66),
   Ev.wstep (some 67), Ev.wstep (some 67), Ev.wstep (some 0),
   Ev.close Role.writer,
   Ev.rcall 2, Ev.rstep false, Ev.rstep false, Ev.rstep false, Ev.rstep false,
   Ev.rcall 2, Ev.rstep false, Ev.rstep false, Ev.rstep false,
   Ev.rcall 5, Ev.rstep false, Ev.rstep false,
   Ev.close Role.reader]

/-- The channel after `drainEvents`, started on a new pipe whose reader has finished its open
(line 156: `status_reader = OPEN`). -/
def drainChan : Chan :=
  ((Chan.start { newPipe with status_reader := Status.OPEN }).run drainEvents).getD
    (Chan.start newPipe)

/-! ## `disco_open` and `disco_release` over the pairing slot (source lines 102-190) -/

/-- Ways in which a step can leave defined behaviour. -/
inductive Fault where
  /-- a null pointer was dereferenced -/
  | nullDeref
  /-- a pipe was accessed after `kfree` -/
  | useAfterFree
  /-- a pointer to memory that was never allocated was dereferenced -/
  | wildPointer
deriving DecidableEq

/-- Source lines 62-65: `WaitingNode`; `reader` is the number of the reader file. -/
structure WaitingNode where
  status : NodeStatus
  reader : Nat

/-- The fields of `struct file` the driver uses: the bits `FMODE_WRITE` and `FMODE_READ` of
`f_mode`, and `private_data` (`none` is the null pointer, `some a` the pipe at address `a`). -/
structure File where
  fmode_write : Bool
  fmode_read : Bool
  private_data : Option Nat

/-- One heap cell: never allocated, a live pipe, or a pipe that was passed to `kfree`. -/
inductive Cell where
  | unused
  | live (p : Pipe)
  | freed

/-- Where the `disco_open` call on a file stands. -/
inductive OPc where
  /-- `disco_open` has not been called on the file -/
  | idle
  /-- writer in `c_wait`, line 111 -/
  | waitReader
  /-- reader in `c_wait`, line 137 -/
  | waitSlot
  /-- reader in `c_wait`, line 148, its node published -/
  | waitReady
  /-- `disco_open` has returned `rc` -/
  | returned (rc : Int)
deriving DecidableEq

/-- Global state of the driver.  Files are numbered; the `WaitingNode` that the `disco_open`
call on file `f` keeps on its stack has address `f`.  `kmalloc` hands out the address `brk`
and addresses are not reused.  `kfrees a` counts the `kfree` calls on address `a`. -/
structure World where
  pend_reader : Option Nat
  node : Nat → WaitingNode
  file : Nat → File
  heap : Nat → Cell
  brk : Nat
  opc : Nat → OPc
  released : Nat → Bool
  kfrees : Nat → Nat
  fault : Option Fault

/-- Pointwise update of a table. -/
def upd {α : Type} (m : Nat → α) (i : Nat) (v : α) : Nat → α :=
  fun j => if j = i then v else m j

/-- The assignment `filp->private_data = pipe` on file `f`, with the pipe at address `a`. -/
def setPrivate (file : Nat → File) (f a : Nat) : Nat → File :=
  upd file f { file f with private_data := some a }

/-- Source lines 117-131 and the epilog: the writer has found `pend_reader` set to the node at
address `n`.  `alloc` tells whether `kmalloc` succeeds; when it returns the null pointer,
line 121 writes through it.  Line 128 assigns right to left: first the private data of
the pending reader's file, then that of the writer's file. -/
def open_claim (alloc : Bool) (w : World) (f n : Nat) : World :=
  if alloc then
    let a := w.brk
    let r := (w.node n).reader
    { w with
      pend_reader := none
      brk := a + 1
      heap := upd w.heap a (Cell.live newPipe)
      file := setPrivate (setPrivate w.file r a) f a
      node := upd w.node n { w.node n with status := NodeStatus.READY }
      opc := upd w.opc f (OPc.returned 0) }
  else
    { w with pend_reader := none, fault := some Fault.nullDeref }

/-- Source lines 110-131: the writer branch from the test of `while (!pend_reader)`. -/
def open_writer (alloc : Bool) (w : World) (f : Nat) : World :=
  match w.pend_reader with
  | none => { w with opc := upd w.opc f OPc.waitReader }
  | some n => open_claim alloc w f n

/-- Source lines 136-148: the reader branch from the test of `while (pend_reader)`.  With the
slot empty the reader publishes its node and, the node being `WAITING`, enters `c_wait`. -/
def open_reader (w : World) (f : Nat) : World :=
  match w.pend_reader with
  | some _ => { w with opc := upd w.opc f OPc.waitSlot }
  | none =>
    { w with
      node := upd w.node f { status := NodeStatus.WAITING, reader := f }
      pend_reader := some f
      opc := upd w.opc f OPc.waitReady }

/-- Source lines 147-159: the reader's `c_wait` of line 148 returns.  `intr`: cancelled. -/
def open_reader_ready (intr : Bool) (w : World) (f : Nat) : World :=
  if intr then
    -- lines 149-151
    { w with pend_reader := none, opc := upd w.opc f (OPc.returned (-EINTR)) }
  else if (w.node f).status = NodeStatus.WAITING then w
  else
    -- lines 155-156
    match (w.file f).private_data with
    | none => { w with fault := some Fault.nullDeref }
    | some a =>
      match w.heap a with
      | Cell.live p =>
        { w with
          heap := upd w.heap a (Cell.live { p with status_reader := Status.OPEN })
          opc := upd w.opc f (OPc.returned 0) }
      | Cell.freed => { w with fault := some Fault.useAfterFree }
      | Cell.unused => { w with fault := some Fault.wildPointer }

/-- Source lines 102-165: `disco_open` from its entry to its first `c_wait` or its return. -/
def disco_open (alloc : Bool) (w : World) (f : Nat) : World :=
  if (w.file f).fmode_write then open_writer alloc w f
  else if (w.file f).fmode_read then open_reader w f
  else { w with opc := upd w.opc f (OPc.returned 0) }

/-- Continuation of the `disco_open` call on file `f` when its `c_wait` returns. -/
def disco_open_wake (alloc intr : Bool) (w : World) (f : Nat) : World :=
  match w.opc f with
  | OPc.waitReader =>
    if intr then { w with opc := upd w.opc f (OPc.returned (-EINTR)) } else open_writer alloc w f
  | OPc.waitSlot =>
    if intr then { w with opc := upd w.opc f (OPc.returned (-EINTR)) } else open_reader w f
  | OPc.waitReady => open_reader_ready intr w f
  | _ => w

/-- Source lines 167-190: `disco_release` on file `f`. -/
def disco_release (w : World) (f : Nat) : World :=
  match (w.file f).private_data with
  | none => { w with fault := some Fault.nullDeref }
  | some a =>
    match w.heap a with
    | Cell.live p =>
      let q := release_pipe (w.file f).fmode_write (w.file f).fmode_read p
      if q.2 then
        { w with heap := upd w.heap a Cell.freed, kfrees := upd w.kfrees a (w.kfrees a + 1),
                 released := upd w.released f true }
      else
        { w with heap := upd w.heap a (Cell.live q.1), released := upd w.released f true }
    | Cell.freed => { w with fault := some Fault.useAfterFree }
    | Cell.unused => { w with fault := some Fault.wildPointer }

/-- What can happen next in the driver. -/
inductive WEv where
  /-- `disco_open` is called on file `f`; `alloc`: a `kmalloc` in this step succeeds -/
  | openCall (f : Nat) (alloc : Bool)
  /-- the `c_wait` of the `disco_open` call on `f` returns; `intr`: it was cancelled -/
  | openWake (f : Nat) (intr alloc : Bool)
  /-- `disco_release` is called on file `f` -/
  | release (f : Nat)

/-- One transition of the driver; `none` when the event cannot happen: a fault has occurred,
`disco_open` was already called on the file, the call is not waiting, or the file is not an
open one that has not been released. -/
def World.step (w : World) : WEv → Option World
  | WEv.openCall f alloc =>
    if w.fault = none ∧ w.opc f = OPc.idle then some (disco_open alloc w f) else none
  | WEv.openWake f intr alloc =>
    if w.fault = none ∧
        (w.opc f = OPc.waitReader ∨ w.opc f = OPc.waitSlot ∨ w.opc f = OPc.waitReady) then
      some (disco_open_wake alloc intr w f)
    else none
  | WEv.release f =>
    if w.fault = none ∧ w.opc f = OPc.returned 0 ∧ w.released f = false then
      some (disco_release w f)
    else none

/-- The driver after a sequence of events; `none` when one of them cannot happen. -/
def World.run (w : World) : List WEv → Option World
  | [] => some w
  | e :: es =>
    match w.step e with
    | some w1 => w1.run es
    | none => none

/-- Source lines 80-93: the state after `disco_init` (`pend_reader = 0`), with no heap cell in
use, for files whose modes are given by `writes` (`true`: opened for writing, `false`:
opened for reading). -/
def World.boot (writes : Nat → Bool) : World :=
  { pend_reader := none
    node := fun _ => { status := NodeStatus.WAITING, reader := 0 }
    file := fun f => { fmode_write := writes f, fmode_read := !(writes f), private_data := none }
    heap := fun _ => Cell.unused
    brk := 1
    opc := fun _ => OPc.idle
    released := fun _ => false
    kfrees := fun _ => 0
    fault := none }

/-- The pairing slot is consistent: when it points to a node, that node belongs to a reader
that waits in line 148 and is still `WAITING`. -/
def World.slotOk (w : World) : Prop :=
  ∀ n, w.pend_reader = some n →
    w.opc n = OPc.waitReady ∧ (w.node n).reader = n ∧ (w.node n).status = NodeStatus.WAITING

/-- Whether the heap cell holds a pipe that was passed to `kfree`. -/
def Cell.isFreed : Cell → Bool
  | Cell.freed => true
  | _ => false

/-- File modes of the sample scenarios: file 2 is opened for writing, every other file for
reading. -/
def sampleModes (f : Nat) : Bool := decide (f = 2)

/-! # Theorems -/

/-! ## Arithmetic of the conversions and of the ring -/

theorem toInt32_of_small (z : Int) (h0 : 0 ≤ z) (h1 : z < 2147483648) : toInt32 z = z := by
  have hz : z % 4294967296 = z := by omega
  simp [toInt32, hz, h1]

theorem tmod_succ (a : Int) (h : 0 ≤ a) :
    Int.tmod (a + 1) (MAX_SIZE : Int) = (a + 1) % 8 := by
  show Int.tmod (a + 1) 8 = (a + 1) % 8
  exact Int.tmod_eq_emod (by omega) (by decide)

theorem slot_val (s : Nat) : (slot s).val = s % 8 := rfl

theorem slot_congr (s s1 : Nat) (h : s % 8 = s1 % 8) : slot s = slot s1 := by
  apply Fin.ext
  simpa [slot] using h

theorem bufIndex_of_range (i : Int) (h0 : 0 ≤ i) (h8 : i < 8) :
    bufIndex i = some (slot i.toNat) := by
  unfold bufIndex
  rw [dif_pos (by simpa using And.intro h0 h8)]
  congr 1
  apply Fin.ext
  rw [slot_val]
  simp only []
  omega

theorem bufIndex_none (i : Int) (h : ¬ (0 ≤ i ∧ i < 8)) : bufIndex i = none := by
  unfold bufIndex
  rw [dif_neg (by simpa using h)]

theorem ring_congr (b : Fin MAX_SIZE → Nat) (n : Nat) :
    ∀ s s1 : Nat, s % 8 = s1 % 8 → ring b s n = ring b s1 n := by
  induction n with
  | zero => intro s s1 _; rfl
  | succ n ih =>
    intro s s1 h
    have h1 : (s + 1) % 8 = (s1 + 1) % 8 := by omega
    simp only [ring, slot_congr s s1 h, ih (s + 1) (s1 + 1) h1]

theorem ring_length (b : Fin MAX_SIZE → Nat) (n : Nat) : ∀ s : Nat, (ring b s n).length = n := by
  induction n with
  | zero => intro s; rfl
  | succ n ih => intro s; simp [ring, ih]

/-! ## The steps of `disco_read` up to its return -/

theorem rd_run_stopped (faults : Nat → Bool) (n : Nat) (p : Pipe) (f : Int) (t : ReadCall)
    (h : t.pc.running = false) : rd_run faults n p f t = (p, f, t) := by
  cases n with
  | zero => rfl
  | succ n => simp [rd_run, h]

/-- The copy loop of `disco_read` (lines 211-219) with `m` bytes left to copy, no copy fault
and at least `m` bytes in the pipe: it returns with the `m` bytes at the cursor delivered. -/
theorem rd_run_loop (faults : Nat → Bool) (hf : ∀ k, faults k = false) (m : Nat) :
    ∀ (fuel : Nat) (p : Pipe) (f : Int) (count out : Int) (k : Nat) (dst : List Nat)
      (idx : List Int),
      count = (k : Int) + m → m < fuel → (m : Int) ≤ p.size → 0 ≤ out → out < 8 →
      ∃ idx1,
        rd_run faults fuel p f
            { count := count, out := out, k := k, dst := dst, idx := idx, pc := RPc.loop } =
          ({ p with size := p.size - m }, (out + m) % 8,
           { count := count, out := (out + m) % 8, k := k + m,
             dst := dst ++ ring p.buffer out.toNat m, idx := idx1, pc := RPc.done }) := by
  induction m with
  | zero =>
    intro fuel p f count out k dst idx hc hfuel hsz h0 h8
    obtain ⟨n, rfl⟩ : ∃ n, fuel = n + 1 := ⟨fuel - 1, by omega⟩
    have hk : ¬ ((k : Int) < count) := by omega
    have e : (out + ((0 : Nat) : Int)) % 8 = out := by omega
    refine ⟨idx, ?_⟩
    simp only [rd_run, RPc.running, rd_step, hk, if_false, if_true]
    rw [rd_run_stopped _ _ _ _ _ (by rfl)]
    simp [e, ring]
    omega
  | succ m ih =>
    intro fuel p f count out k dst idx hc hfuel hsz h0 h8
    obtain ⟨n, rfl⟩ : ∃ n, fuel = n + 1 := ⟨fuel - 1, by omega⟩
    have hk : (k : Int) < count := by omega
    have hidx := bufIndex_of_range out h0 h8
    obtain ⟨idx1, h1⟩ := ih n { p with size := p.size - 1 } f count ((out + 1) % 8) (k + 1)
      (dst ++ [p.buffer (slot out.toNat)]) (idx ++ [out])
      (by push_cast; omega) (by omega) (by simp only []; omega) (by omega) (by omega)
    refine ⟨idx1, ?_⟩
    rw [rd_run]
    simp only [rd_step, RPc.running, hk, if_true, hidx, hf, tmod_succ out h0]
    simp only [Bool.false_eq_true, if_false]
    rw [h1]
    have e1 : ((out + 1) % 8 + (m : Int)) % 8 = (out + ((m + 1 : Nat) : Int)) % 8 := by
      push_cast; omega
    have e2 : p.size - 1 - (m : Int) = p.size - ((m + 1 : Nat) : Int) := by push_cast; omega
    have e3 : ring p.buffer ((out + 1) % 8).toNat m = ring p.buffer (out.toNat + 1) m :=
      ring_congr _ _ _ _ (by omega)
    simp only [e1, e2, e3, ring, List.append_assoc, List.singleton_append, Nat.add_assoc,
      Nat.add_comm 1 m]

/-- Storing a byte behind the `n` bytes that start at `r` appends it to them. -/
theorem ring_push (b : Fin MAX_SIZE → Nat) (v : Nat) (n : Nat) :
    ∀ r : Nat, n < 8 → ring (bufSet b (slot (r + n)) v) r (n + 1) = ring b r n ++ [v] := by
  induction n with
  | zero => intro r _; simp [ring, bufSet]
  | succ n ih =>
    intro r hn
    have hne : slot r ≠ slot (r + (n + 1)) := by
      intro e
      have := congrArg Fin.val e
      simp only [slot_val] at this
      omega
    have e1 : r + (n + 1) = r + 1 + n := by omega
    have := ih (r + 1) (by omega)
    rw [ring, e1, this]
    rw [← e1]
    simp only [bufSet, hne, if_false, ring, List.cons_append]

theorem wr_run_stopped (user : Nat → Option Nat) (n : Nat) (p : Pipe) (f : Int) (t : WriteCall)
    (h : t.pc.running = false) : wr_run user n p f t = (p, f, t) := by
  cases n with
  | zero => rfl
  | succ n => simp [wr_run, h]

/-- The copy loop of `disco_write` (lines 238-254) with the `m` bytes `bytes.drop k` left to
store, all readable, and room for them: no wait, and the bytes are appended to the ring. -/
theorem wr_run_loop (bytes : List Nat) (m : Nat) :
    ∀ (fuel : Nat) (p : Pipe) (f : Int) (count inp : Int) (k : Nat) (stored : List Nat)
      (idx : List Int) (r n : Nat),
      count = (k : Int) + m → k + m = bytes.length → 2 * m < fuel → p.size = (n : Int) →
      n + m ≤ 8 → inp = (((r + n) % 8 : Nat) : Int) →
      ∃ idx1 B,
        wr_run (fun i => bytes[i]?) fuel p f
            { count := count, inp := inp, k := k, stored := stored, idx := idx,
              pc := WPc.loop } =
          ({ p with buffer := B, size := p.size + m }, (((r + n + m) % 8 : Nat) : Int),
           { count := count, inp := (((r + n + m) % 8 : Nat) : Int), k := k + m,
             stored := stored ++ bytes.drop k, idx := idx1, pc := WPc.done }) ∧
        ring B r (n + m) = ring p.buffer r n ++ bytes.drop k := by
  induction m with
  | zero =>
    intro fuel p f count inp k stored idx r n hc hlen hfuel hsz hroom hin
    obtain ⟨g, rfl⟩ : ∃ g, fuel = g + 1 := ⟨fuel - 1, by omega⟩
    have hk : ¬ ((k : Int) < count) := by omega
    have hd : bytes.drop k = [] := List.drop_eq_nil_of_le (by omega)
    refine ⟨idx, p.buffer, ?_, ?_⟩
    · simp only [wr_run, WPc.running, wr_step, hk, if_false, if_true]
      rw [wr_run_stopped _ _ _ _ _ (by rfl)]
      simp [hd, hin]
    · simp [hd]
  | succ m ih =>
    intro fuel p f count inp k stored idx r n hc hlen hfuel hsz hroom hin
    obtain ⟨g, rfl⟩ : ∃ g, fuel = g + 2 := ⟨fuel - 2, by omega⟩
    have hk : (k : Int) < count := by omega
    have hfull : ¬ (p.size = (MAX_SIZE : Int)) := by
      show ¬ (p.size = 8)
      omega
    have hidx : bufIndex inp = some (slot (r + n)) := by
      rw [bufIndex_of_range inp (by omega) (by omega)]
      exact congrArg some (slot_congr _ _ (by omega))
    have hklt : k < bytes.length := by omega
    have hget : bytes[k]? = some bytes[k] := List.getElem?_eq_getElem hklt
    have hdrop : bytes.drop k = bytes[k] :: bytes.drop (k + 1) := List.drop_eq_getElem_cons hklt
    obtain ⟨idx1, B, h1, h2⟩ := ih g
      { p with buffer := bufSet p.buffer (slot (r + n)) bytes[k], size := p.size + 1 } f count
      ((inp + 1) % 8) (k + 1) (stored ++ [bytes[k]]) (idx ++ [inp]) r (n + 1)
      (by push_cast; omega) (by omega) (by omega) (by simp only []; push_cast; omega) (by omega)
      (by omega)
    refine ⟨idx1, B, ?_, ?_⟩
    · rw [wr_run]
      simp only [wr_step, WPc.running, hk, if_true]
      rw [wr_run]
      simp only [wr_step, WPc.running, if_true, hfull, if_false, hidx, hget,
        tmod_succ inp (by omega)]
      rw [h1]
      have e1 : p.size + 1 + (m : Int) = p.size + ((m + 1 : Nat) : Int) := by push_cast; omega
      have e2 : r + (n + 1) + m = r + n + (m + 1) := by omega
      simp only [e1, e2, hdrop, List.append_assoc, List.singleton_append, Nat.add_assoc,
        Nat.add_comm 1 m]
    · have e3 : n + 1 + m = n + (m + 1) := by omega
      rw [← e3, h2]
      simp only [ring_push p.buffer bytes[k] n r (by omega), hdrop, List.append_assoc,
        List.singleton_append]

/-- A `disco_read` call that finds data, or the writer closed, returns without waiting: it
delivers the first `min count size` bytes at the cursor. -/
theorem disco_read_ready (p : Pipe) (f_pos : Int) (ucount : Nat)
    (hpos : 0 ≤ f_pos ∧ f_pos < 8) (hsize : 0 ≤ p.size)
    (hreq : 0 ≤ toInt32 (ucount : Int))
    (hready : 0 < p.size ∨ p.status_writer = Status.CLOSED) :
    ∃ idx1,
      disco_read (fun _ => false) p f_pos ucount =
        ({ p with size := p.size - min (toInt32 (ucount : Int)) p.size },
         (f_pos + min (toInt32 (ucount : Int)) p.size) % 8,
         { count := min (toInt32 (ucount : Int)) p.size,
           out := (f_pos + min (toInt32 (ucount : Int)) p.size) % 8,
           k := (min (toInt32 (ucount : Int)) p.size).toNat,
           dst := ring p.buffer f_pos.toNat (min (toInt32 (ucount : Int)) p.size).toNat,
           idx := idx1, pc := RPc.done }) := by
  have hf : toInt32 f_pos = f_pos := toInt32_of_small f_pos hpos.1 (by omega)
  have htest : ¬ (p.size = 0 ∧ p.status_writer = Status.OPEN) := by
    rintro ⟨h1, h2⟩
    rcases hready with h | h
    · omega
    · rw [h] at h2; exact absurd h2 (by decide)
  generalize hc : toInt32 (ucount : Int) = c at hreq ⊢
  obtain ⟨idx1, hrun⟩ := rd_run_loop (fun _ => false) (fun _ => rfl) (min c p.size).toNat
    (c.toNat + 1) p f_pos (min c p.size) f_pos 0 [] []
    (by simp; omega) (by omega) (by omega) hpos.1 hpos.2
  have hmin : (if c > p.size then p.size else c) = min c p.size := by
    split <;> omega
  have hd : disco_read (fun _ => false) p f_pos ucount =
      rd_run (fun _ => false) (c.toNat + 1) p f_pos
        { count := min c p.size, out := f_pos, k := 0, dst := [], idx := [], pc := RPc.loop } := by
    unfold disco_read rd_begin
    rw [hc, hf, rd_run]
    simp only [RPc.running, if_true, rd_step, htest, if_false, hmin]
  have hm : (((min c p.size).toNat : Nat) : Int) = min c p.size := by omega
  refine ⟨idx1, ?_⟩
  rw [hd, hrun]
  simp only [hm, List.nil_append, Nat.zero_add]

/-- C3. A read that does not have to wait: with `size > 0` or the writer closed, a request
`count ≥ 0` and no copy fault, `disco_read` returns (it does not enter `c_wait`) the value
`min count size`, and the pipe differs only by `size` reduced by that amount; with `size = 0`
the read returns 0 and leaves the pipe and the file position unchanged. -/
theorem disco_read_no_wait (p : Pipe) (f_pos : Int) (ucount : Nat)
    (hpos : 0 ≤ f_pos ∧ f_pos < 8) (hsize : 0 ≤ p.size)
    (hreq : 0 ≤ toInt32 (ucount : Int))
    (hready : 0 < p.size ∨ p.status_writer = Status.CLOSED) :
    (disco_read (fun _ => false) p f_pos ucount).2.2.pc = RPc.done ∧
    (disco_read (fun _ => false) p f_pos ucount).2.2.count = min (toInt32 (ucount : Int)) p.size ∧
    (disco_read (fun _ => false) p f_pos ucount).1 =
      { p with size := p.size - min (toInt32 (ucount : Int)) p.size } ∧
    (p.size = 0 →
      (disco_read (fun _ => false) p f_pos ucount).2.2.count = 0 ∧
      (disco_read (fun _ => false) p f_pos ucount).1 = p ∧
      (disco_read (fun _ => false) p f_pos ucount).2.1 = f_pos) := by
  obtain ⟨idx1, h⟩ := disco_read_ready p f_pos ucount hpos hsize hreq hready
  rw [h]
  refine ⟨rfl, rfl, rfl, ?_⟩
  intro h0
  have hz : min (toInt32 (ucount : Int)) p.size = 0 := by omega
  refine ⟨hz, ?_, ?_⟩
  · simp only [hz, h0]; cases p; simp_all
  · simp only [hz]; omega

/-- Witness of C3: a pipe holding 3 bytes, reader file at position 6, request 2. -/
theorem disco_read_no_wait_witness :
    (0 : Int) < 3 ∧
    (disco_read (fun _ => false)
        { buffer := fun _ => 7, size := 3, status_writer := Status.OPEN,
          status_reader := Status.OPEN } 6 2).2.2.count = min (toInt32 ((2 : Nat) : Int)) 3 :=
  ⟨by decide, (disco_read_no_wait
    { buffer := fun _ => 7, size := 3, status_writer := Status.OPEN,
      status_reader := Status.OPEN } 6 2 (by decide) (by decide) (by decide)
      (Or.inl (by decide))).2.1⟩

/-- C1 (as stated, refuted). After a successful write of the empty byte sequence into a
freshly paired empty channel, a read with request 10 does not return 0: it enters `c_wait`. -/
theorem round_trip_empty_blocks :
    (disco_write (fun i => ([] : List Nat)[i]?) { newPipe with status_reader := Status.OPEN }
        0 0).2.2.pc = WPc.done ∧
    (disco_write (fun i => ([] : List Nat)[i]?) { newPipe with status_reader := Status.OPEN }
        0 0).2.2.count = 0 ∧
    (disco_read (fun _ => false)
      (disco_write (fun i => ([] : List Nat)[i]?) { newPipe with status_reader := Status.OPEN }
        0 0).1 0 10).2.2.pc = RPc.waiting := by
  decide

/-- C1 (amended). Round trip of a non-empty byte sequence of length `N ≤ 8` through an empty
pipe whose two files are at position 0: the write returns `N` without waiting, and a read
with request at least `N` and no copy fault returns `N`, delivers the bytes in order and
leaves `size = 0`. -/
theorem round_trip (p : Pipe) (bytes : List Nat) (ucount : Nat)
    (hempty : p.size = 0) (hne : bytes ≠ []) (hlen : bytes.length ≤ 8)
    (hreq : (bytes.length : Int) ≤ toInt32 (ucount : Int)) :
    (disco_write (fun i => bytes[i]?) p 0 bytes.length).2.2.pc = WPc.done ∧
    (disco_write (fun i => bytes[i]?) p 0 bytes.length).2.2.count = bytes.length ∧
    (disco_read (fun _ => false)
      (disco_write (fun i => bytes[i]?) p 0 bytes.length).1 0 ucount).2.2.pc = RPc.done ∧
    (disco_read (fun _ => false)
      (disco_write (fun i => bytes[i]?) p 0 bytes.length).1 0 ucount).2.2.count
        = bytes.length ∧
    (disco_read (fun _ => false)
      (disco_write (fun i => bytes[i]?) p 0 bytes.length).1 0 ucount).2.2.dst = bytes ∧
    (disco_read (fun _ => false)
      (disco_write (fun i => bytes[i]?) p 0 bytes.length).1 0 ucount).1.size = 0 := by
  have hN : 0 < bytes.length := List.length_pos.mpr hne
  have hcnt : toInt32 ((bytes.length : Nat) : Int) = (bytes.length : Int) :=
    toInt32_of_small _ (by omega) (by omega)
  obtain ⟨idx1, B, hw, hring⟩ := wr_run_loop bytes bytes.length
    (2 * bytes.length + 2) p 0 bytes.length 0 0 [] [] 0 0
    (by simp) (by simp) (by omega) (by simpa using hempty) (by omega) (by simp)
  have hwrite : disco_write (fun i => bytes[i]?) p 0 bytes.length =
      wr_run (fun i => bytes[i]?) (2 * bytes.length + 2) p 0
        { count := bytes.length, inp := 0, k := 0, stored := [], idx := [],
          pc := WPc.loop } := by
    unfold disco_write wr_begin
    rw [hcnt, toInt32_of_small 0 (by decide) (by decide)]
    simp
  rw [hwrite, hw]
  obtain ⟨idx2, hr⟩ := disco_read_ready
    { p with buffer := B, size := p.size + (bytes.length : Int) } 0 ucount
    (by decide) (by simp only []; omega) (by omega) (Or.inl (by simp only []; omega))
  simp only [] at hr ⊢
  rw [hr]
  have hmin : min (toInt32 (ucount : Int)) (p.size + (bytes.length : Int)) = bytes.length := by
    omega
  have hring1 : ring B 0 bytes.length = bytes := by
    simpa [ring] using hring
  refine ⟨trivial, trivial, rfl, hmin, ?_, ?_⟩
  · show ring B (0 : Int).toNat
      (min (toInt32 (ucount : Int)) (p.size + (bytes.length : Int))).toNat = bytes
    rw [hmin]
    exact hring1
  · show p.size + (bytes.length : Int)
      - min (toInt32 (ucount : Int)) (p.size + (bytes.length : Int)) = 0
    omega

/-- Witness of C1 (spec scenario A): writing `H,E,L,L,O` and then `read(10)` returns 5 and
yields `H,E,L,L,O`. -/
theorem round_trip_witness :
    (disco_read (fun _ => false)
      (disco_write (fun i => [72, 69, 76, 76, 79][i]?) newPipe 0 5).1 0 10).2.2.count = 5 ∧
    (disco_read (fun _ => false)
      (disco_write (fun i => [72, 69, 76, 76, 79][i]?) newPipe 0 5).1 0 10).2.2.dst
        = [72, 69, 76, 76, 79] :=
  ⟨(round_trip newPipe [72, 69, 76, 76, 79] 10 rfl (by decide) (by decide) (by decide)).2.2.2.1,
   (round_trip newPipe [72, 69, 76, 76, 79] 10 rfl (by decide) (by decide) (by decide)).2.2.2.2.1⟩

/-! ## Index safety -/

theorem rd_step_safe (fault : Bool) (p : Pipe) (f : Int) (t : ReadCall)
    (hf : inRing f) (ht : inRing t.out) (hpc : t.pc ≠ RPc.ub) (hidx : ∀ i ∈ t.idx, inRing i) :
    inRing (rd_step fault p f t).2.1 ∧ inRing (rd_step fault p f t).2.2.out ∧
    (rd_step fault p f t).2.2.pc ≠ RPc.ub ∧ ∀ i ∈ (rd_step fault p f t).2.2.idx, inRing i := by
  obtain ⟨count, out, k, dst, idx, pc⟩ := t
  simp only [] at ht hpc hidx
  have hb := bufIndex_of_range out ht.1 ht.2
  have hm := tmod_succ out ht.1
  have hidx1 : ∀ i ∈ idx ++ [out], inRing i := by
    intro i hi
    rcases List.mem_append.mp hi with h | h
    · exact hidx i h
    · rw [List.mem_singleton.mp h]; exact ht
  have hout1 : inRing ((out + 1) % 8) := by
    unfold inRing at ht ⊢; omega
  cases pc <;> cases fault <;> simp only [rd_step] <;> (try split) <;> (try split) <;>
    simp_all

theorem wr_step_safe (src : Option Nat) (p : Pipe) (f : Int) (t : WriteCall)
    (hf : inRing f) (ht : inRing t.inp) (hpc : t.pc ≠ WPc.ub) (hidx : ∀ i ∈ t.idx, inRing i) :
    inRing (wr_step src p f t).2.1 ∧ inRing (wr_step src p f t).2.2.inp ∧
    (wr_step src p f t).2.2.pc ≠ WPc.ub ∧ ∀ i ∈ (wr_step src p f t).2.2.idx, inRing i := by
  obtain ⟨count, inp, k, stored, idx, pc⟩ := t
  simp only [] at ht hpc hidx
  have hb := bufIndex_of_range inp ht.1 ht.2
  have hm := tmod_succ inp ht.1
  have hidx1 : ∀ i ∈ idx ++ [inp], inRing i := by
    intro i hi
    rcases List.mem_append.mp hi with h | h
    · exact hidx i h
    · rw [List.mem_singleton.mp h]; exact ht
  have hout1 : inRing ((inp + 1) % 8) := by
    unfold inRing at ht ⊢; omega
  cases pc <;> cases src <;> simp only [wr_step] <;> (try split) <;> (try split) <;>
    simp_all

theorem mem_append_inRing (l1 l2 : List Int) (h1 : ∀ i ∈ l1, inRing i)
    (h2 : ∀ i ∈ l2, inRing i) : ∀ i ∈ l1 ++ l2, inRing i := by
  intro i hi
  rcases List.mem_append.mp hi with h | h
  · exact h1 i h
  · exact h2 i h

theorem Chan.rsettle_safe (s : Chan) (p : Pipe) (f : Int) (t : ReadCall) (h : s.safe)
    (hf : inRing f) (ht : inRing t.out) (hpc : t.pc ≠ RPc.ub) (hidx : ∀ i ∈ t.idx, inRing i) :
    (s.rsettle p f t).safe := by
  obtain ⟨h1, h2, h3, h4, h5⟩ := h
  have hu := mem_append_inRing _ _ h3 hidx
  unfold Chan.rsettle
  cases hp : t.pc <;> simp only [] <;> first
    | exact absurd hp hpc
    | exact ⟨hf, h2, hu, by simp, h5⟩
    | (refine ⟨hf, h2, h3, ?_, h5⟩
       intro t1 ht1
       injection ht1 with ht1
       subst ht1
       exact ⟨ht, hpc, by simp [hp], hidx⟩)

theorem Chan.wsettle_safe (s : Chan) (p : Pipe) (f : Int) (t : WriteCall) (h : s.safe)
    (hf : inRing f) (ht : inRing t.inp) (hpc : t.pc ≠ WPc.ub) (hidx : ∀ i ∈ t.idx, inRing i) :
    (s.wsettle p f t).safe := by
  obtain ⟨h1, h2, h3, h4, h5⟩ := h
  have hu := mem_append_inRing _ _ h3 hidx
  unfold Chan.wsettle
  cases hp : t.pc <;> simp only [] <;> first
    | exact absurd hp hpc
    | exact ⟨h1, hf, hu, h4, by simp⟩
    | (refine ⟨h1, hf, h3, h4, ?_⟩
       intro t1 ht1
       injection ht1 with ht1
       subst ht1
       exact ⟨ht, hpc, by simp [hp], hidx⟩)

theorem Chan.safe_step (s s1 : Chan) (e : Ev) (h : s.safe) (hs : s.step e = some s1) :
    s1.safe := by
  have h0 := h
  obtain ⟨h1, h2, h3, h4, h5⟩ := h
  cases e with
  | rcall ucount =>
    simp only [Chan.step] at hs
    split at hs
    · injection hs with hs
      subst hs
      refine ⟨h1, h2, h3, ?_, h5⟩
      intro t ht
      injection ht with ht
      subst ht
      have : toInt32 s.rpos = s.rpos := toInt32_of_small _ h1.1 (by have := h1.2; omega)
      simp [ReadCall.safe, rd_begin, this, h1]
    · exact absurd hs (by simp)
  | wcall ucount =>
    simp only [Chan.step] at hs
    split at hs
    · injection hs with hs
      subst hs
      refine ⟨h1, h2, h3, h4, ?_⟩
      intro t ht
      injection ht with ht
      subst ht
      have : toInt32 s.wpos = s.wpos := toInt32_of_small _ h2.1 (by have := h2.2; omega)
      simp [WriteCall.safe, wr_begin, this, h2]
    · exact absurd hs (by simp)
  | rstep fault =>
    simp only [Chan.step] at hs
    split at hs
    · rename_i t ht
      split at hs
      · injection hs with hs
        subst hs
        obtain ⟨a1, a2, a3, a4⟩ := h4 t ht
        obtain ⟨b1, b2, b3, b4⟩ := rd_step_safe fault s.pipe s.rpos t h1 a1 a2 a4
        exact Chan.rsettle_safe s _ _ _ h0 b1 b2 b3 b4
      · exact absurd hs (by simp)
    · exact absurd hs (by simp)
  | wstep src =>
    simp only [Chan.step] at hs
    split at hs
    · rename_i t ht
      split at hs
      · injection hs with hs
        subst hs
        obtain ⟨a1, a2, a3, a4⟩ := h5 t ht
        obtain ⟨b1, b2, b3, b4⟩ := wr_step_safe src s.pipe s.wpos t h2 a1 a2 a4
        exact Chan.wsettle_safe s _ _ _ h0 b1 b2 b3 b4
      · exact absurd hs (by simp)
    · exact absurd hs (by simp)
  | rwake intr =>
    simp only [Chan.step] at hs
    split at hs
    · rename_i t ht
      split at hs
      · injection hs with hs
        subst hs
        obtain ⟨a1, a2, a3, a4⟩ := h4 t ht
        apply Chan.rsettle_safe s _ _ _ h0 h1 <;> cases intr <;> simp [rd_wake, a1] <;> exact a4
      · exact absurd hs (by simp)
    · exact absurd hs (by simp)
  | wwake intr =>
    simp only [Chan.step] at hs
    split at hs
    · rename_i t ht
      split at hs
      · injection hs with hs
        subst hs
        obtain ⟨a1, a2, a3, a4⟩ := h5 t ht
        apply Chan.wsettle_safe s _ _ _ h0 h2 <;> cases intr <;> simp [wr_wake, a1] <;> exact a4
      · exact absurd hs (by simp)
    · exact absurd hs (by simp)
  | close r =>
    simp only [Chan.step] at hs
    split at hs
    · injection hs with hs
      subst hs
      exact ⟨h1, h2, h3, h4, h5⟩
    · exact absurd hs (by simp)

theorem Chan.safe_run (evs : List Ev) : ∀ (s s1 : Chan), s.safe → s.run evs = some s1 → s1.safe := by
  induction evs with
  | nil =>
    intro s s1 h hr
    injection hr with hr
    subst hr
    exact h
  | cons e es ih =>
    intro s s1 h hr
    simp only [Chan.run] at hr
    split at hr
    · rename_i s2 hs2
      exact ih s2 s1 (Chan.safe_step s s2 e h hs2) hr
    · exact absurd hr (by simp)

/-- C10. Buffer-index safety: from a channel whose two files are idle with positions in
`0..7`, after any sequence of steps of `disco_read`, `disco_write` and `disco_release` (calls
that wait, fail or are cancelled included) every index used to access the ring buffer is in
`0..7`, both file positions are again in `0..7`, and no call is at an out-of-bounds access. -/
theorem buffer_index_safety (s0 s : Chan) (evs : List Ev)
    (hr : 0 ≤ s0.rpos ∧ s0.rpos < 8) (hw : 0 ≤ s0.wpos ∧ s0.wpos < 8)
    (hidle : s0.rd = none ∧ s0.wr = none) (hused : s0.used = [])
    (hrun : s0.run evs = some s) :
    (∀ i ∈ s.indices, 0 ≤ i ∧ i < 8) ∧
    (0 ≤ s.rpos ∧ s.rpos < 8) ∧ (0 ≤ s.wpos ∧ s.wpos < 8) ∧
    (∀ t, s.rd = some t → t.pc ≠ RPc.ub) ∧ (∀ t, s.wr = some t → t.pc ≠ WPc.ub) := by
  have h0 : s0.safe := by
    refine ⟨hr, hw, ?_, ?_, ?_⟩
    · rw [hused]; intro i hi; exact absurd hi (List.not_mem_nil i)
    · intro t ht; rw [hidle.1] at ht; exact absurd ht (by simp)
    · intro t ht; rw [hidle.2] at ht; exact absurd ht (by simp)
  obtain ⟨h1, h2, h3, h4, h5⟩ := Chan.safe_run evs s0 s h0 hrun
  refine ⟨?_, h1, h2, fun t ht => (h4 t ht).2.1, fun t ht => (h5 t ht).2.1⟩
  intro i hi
  unfold Chan.indices at hi
  rcases List.mem_append.mp hi with hi | hi
  · rcases List.mem_append.mp hi with hi | hi
    · exact h3 i hi
    · cases hrd : s.rd with
      | none => rw [hrd] at hi; exact absurd hi (List.not_mem_nil i)
      | some t => rw [hrd] at hi; exact (h4 t hrd).2.2.2 i hi
  · cases hwr : s.wr with
    | none => rw [hwr] at hi; exact absurd hi (List.not_mem_nil i)
    | some t => rw [hwr] at hi; exact (h5 t hwr).2.2.2 i hi

/-- Witness of C10: the sample history (a write of three bytes, then a read of two). -/
theorem buffer_index_safety_witness :
    (Chan.start newPipe).run sampleEvents = some sampleChan ∧
    ∀ i ∈ sampleChan.indices, 0 ≤ i ∧ i < 8 :=
  ⟨rfl, (buffer_index_safety (Chan.start newPipe) sampleChan sampleEvents
    (by decide) (by decide) ⟨rfl, rfl⟩ rfl rfl).1⟩

/-! ## The size invariant -/

theorem rd_step_sized (fault : Bool) (p : Pipe) (f : Int) (t : ReadCall)
    (h0 : 0 ≤ p.size) (h8 : p.size ≤ 8) (ht : t.sized p) :
    0 ≤ (rd_step fault p f t).1.size ∧ (rd_step fault p f t).1.size ≤ 8 ∧
    (rd_step fault p f t).2.2.sized (rd_step fault p f t).1 ∧
    ((rd_step fault p f t).2.2.dst ≠ t.dst →
      0 < p.size ∧ (rd_step fault p f t).1.size = p.size - 1) := by
  obtain ⟨count, out, k, dst, idx, pc⟩ := t
  obtain ⟨a1, a2⟩ := ht
  simp only [] at a1 a2
  cases pc <;> cases fault <;> simp only [rd_step, ReadCall.sized] <;> (try split) <;>
    (try split) <;> simp_all <;> omega

theorem wr_step_sized (src : Option Nat) (p : Pipe) (f : Int) (t : WriteCall)
    (h0 : 0 ≤ p.size) (h8 : p.size ≤ 8) :
    0 ≤ (wr_step src p f t).1.size ∧ (wr_step src p f t).1.size ≤ 8 ∧
    p.size ≤ (wr_step src p f t).1.size ∧
    ((wr_step src p f t).2.2.stored ≠ t.stored →
      p.size < 8 ∧ (wr_step src p f t).1.size = p.size + 1) := by
  obtain ⟨count, inp, k, stored, idx, pc⟩ := t
  cases pc <;> cases src <;> simp only [wr_step] <;> (try split) <;>
    (try split) <;> simp_all <;> omega

theorem Chan.rsettle_accepted (s : Chan) (p : Pipe) (f : Int) (t : ReadCall) :
    (s.rsettle p f t).accepted = s.accepted := by
  unfold Chan.rsettle Chan.accepted
  cases t.pc <;> rfl

theorem Chan.wsettle_delivered (s : Chan) (p : Pipe) (f : Int) (t : WriteCall) :
    (s.wsettle p f t).delivered = s.delivered := by
  unfold Chan.wsettle Chan.delivered
  cases t.pc <;> rfl

theorem Chan.rsettle_delivered (s : Chan) (p : Pipe) (f : Int) (t : ReadCall) :
    (s.rsettle p f t).delivered = s.rdone ++ t.dst := by
  unfold Chan.rsettle Chan.delivered
  cases t.pc <;> simp

theorem Chan.wsettle_accepted (s : Chan) (p : Pipe) (f : Int) (t : WriteCall) :
    (s.wsettle p f t).accepted = s.wdone ++ t.stored := by
  unfold Chan.wsettle Chan.accepted
  cases t.pc <;> simp

theorem Chan.rsettle_pipe (s : Chan) (p : Pipe) (f : Int) (t : ReadCall) :
    (s.rsettle p f t).pipe = p := by
  unfold Chan.rsettle
  cases t.pc <;> rfl

theorem Chan.wsettle_pipe (s : Chan) (p : Pipe) (f : Int) (t : WriteCall) :
    (s.wsettle p f t).pipe = p := by
  unfold Chan.wsettle
  cases t.pc <;> rfl

theorem Chan.rsettle_sized (s : Chan) (p : Pipe) (f : Int) (t : ReadCall)
    (h0 : 0 ≤ p.size) (h8 : p.size ≤ 8) (ht : t.sized p) : (s.rsettle p f t).sized := by
  unfold Chan.rsettle
  cases hp : t.pc <;> simp only [] <;> refine ⟨h0, h8, ?_⟩ <;> intro t1 ht1 <;>
    cases ht1 <;> exact ht

theorem Chan.wsettle_sized (s : Chan) (p : Pipe) (f : Int) (t : WriteCall) (h : s.sized)
    (h0 : 0 ≤ p.size) (h8 : p.size ≤ 8) (hle : s.pipe.size ≤ p.size) :
    (s.wsettle p f t).sized := by
  obtain ⟨_, _, h3⟩ := h
  have key : ∀ t1, s.rd = some t1 → t1.sized p := by
    intro t1 ht1
    obtain ⟨a1, a2⟩ := h3 t1 ht1
    exact ⟨fun hpc => le_trans (a1 hpc) hle, a2⟩
  unfold Chan.wsettle
  cases hp : t.pc <;> exact ⟨h0, h8, key⟩

theorem Chan.sized_step (s s1 : Chan) (e : Ev) (h : s.sized) (hs : s.step e = some s1) :
    s1.sized ∧
    (s1.accepted ≠ s.accepted → s.pipe.size < 8 ∧ s1.pipe.size = s.pipe.size + 1) ∧
    (s1.delivered ≠ s.delivered → 0 < s.pipe.size ∧ s1.pipe.size = s.pipe.size - 1) := by
  have hh := h
  obtain ⟨h0, h8, h3⟩ := h
  cases e with
  | rcall ucount =>
    simp only [Chan.step] at hs
    split at hs
    · rename_i hc
      injection hs with hs
      subst hs
      have hrd : s.rd = none := by
        cases hrd : s.rd with
        | none => rfl
        | some t => rw [hrd] at hc; exact absurd hc.2.1 (by simp)
      refine ⟨⟨h0, h8, ?_⟩, fun hne => absurd rfl hne, fun hne => absurd ?_ hne⟩
      · intro t ht
        injection ht with ht
        subst ht
        simp [ReadCall.sized, rd_begin]
      · simp [Chan.delivered, hrd, rd_begin]
    · exact absurd hs (by simp)
  | wcall ucount =>
    simp only [Chan.step] at hs
    split at hs
    · rename_i hc
      injection hs with hs
      subst hs
      have hwr : s.wr = none := by
        cases hwr : s.wr with
        | none => rfl
        | some t => rw [hwr] at hc; exact absurd hc.2.1 (by simp)
      refine ⟨⟨h0, h8, h3⟩, fun hne => absurd ?_ hne, fun hne => absurd rfl hne⟩
      simp [Chan.accepted, hwr, wr_begin]
    · exact absurd hs (by simp)
  | rstep fault =>
    simp only [Chan.step] at hs
    split at hs
    · rename_i t ht
      split at hs
      · injection hs with hs
        subst hs
        obtain ⟨b1, b2, b3, b4⟩ := rd_step_sized fault s.pipe s.rpos t h0 h8 (h3 t ht)
        refine ⟨Chan.rsettle_sized s _ _ _ b1 b2 b3, ?_, ?_⟩
        · intro hne
          exact absurd (Chan.rsettle_accepted s _ _ _) hne
        · intro hne
          rw [Chan.rsettle_delivered, Chan.rsettle_pipe] at *
          apply b4
          intro heq
          apply hne
          simp [Chan.delivered, ht, heq]
      · exact absurd hs (by simp)
    · exact absurd hs (by simp)
  | wstep src =>
    simp only [Chan.step] at hs
    split at hs
    · rename_i t ht
      split at hs
      · injection hs with hs
        subst hs
        obtain ⟨b1, b2, b3, b4⟩ := wr_step_sized src s.pipe s.wpos t h0 h8
        refine ⟨Chan.wsettle_sized s _ _ _ hh b1 b2 b3, ?_, ?_⟩
        · intro hne
          rw [Chan.wsettle_accepted, Chan.wsettle_pipe] at *
          apply b4
          intro heq
          apply hne
          simp [Chan.accepted, ht, heq]
        · intro hne
          exact absurd (Chan.wsettle_delivered s _ _ _) hne
      · exact absurd hs (by simp)
    · exact absurd hs (by simp)
  | rwake intr =>
    simp only [Chan.step] at hs
    split at hs
    · rename_i t ht
      split at hs
      · rename_i hc
        injection hs with hs
        subst hs
        obtain ⟨a1, a2⟩ := h3 t ht
        refine ⟨Chan.rsettle_sized s _ _ _ h0 h8 ?_, ?_, ?_⟩
        · cases intr <;> simp [rd_wake, ReadCall.sized, a2, hc.2.2]
        · intro hne
          exact absurd (Chan.rsettle_accepted s _ _ _) hne
        · intro hne
          rw [Chan.rsettle_delivered] at hne
          exfalso
          apply hne
          cases intr <;> simp [Chan.delivered, ht, rd_wake]
      · exact absurd hs (by simp)
    · exact absurd hs (by simp)
  | wwake intr =>
    simp only [Chan.step] at hs
    split at hs
    · rename_i t ht
      split at hs
      · injection hs with hs
        subst hs
        refine ⟨Chan.wsettle_sized s _ _ _ hh h0 h8 (le_refl _), ?_, ?_⟩
        · intro hne
          rw [Chan.wsettle_accepted] at hne
          exfalso
          apply hne
          cases intr <;> simp [Chan.accepted, ht, wr_wake]
        · intro hne
          exact absurd (Chan.wsettle_delivered s _ _ _) hne
      · exact absurd hs (by simp)
    · exact absurd hs (by simp)
  | close r =>
    simp only [Chan.step] at hs
    split at hs
    · injection hs with hs
      subst hs
      have hsz : (release_pipe (decide (r = Role.writer)) (decide (r = Role.reader)) s.pipe).1.size
          = s.pipe.size := by
        unfold release_pipe
        simp only []
        split
        · rfl
        · split <;> rfl
      refine ⟨⟨by simp only [hsz]; exact h0, by simp only [hsz]; exact h8, ?_⟩,
        fun hne => absurd rfl hne, fun hne => absurd rfl hne⟩
      intro t ht
      obtain ⟨a1, a2⟩ := h3 t ht
      exact ⟨fun hpc => by simp only [hsz]; exact a1 hpc, a2⟩
    · exact absurd hs (by simp)

theorem Chan.sized_run (evs : List Ev) :
    ∀ (s s1 : Chan), s.sized → s.run evs = some s1 → s1.sized := by
  induction evs with
  | nil =>
    intro s s1 h hr
    injection hr with hr
    subst hr
    exact h
  | cons e es ih =>
    intro s s1 h hr
    simp only [Chan.run] at hr
    split at hr
    · rename_i s2 hs2
      exact ih s2 s1 (Chan.sized_step s s2 e h hs2).1 hr
    · exact absurd hr (by simp)

/-- C4. Size invariant: from any channel whose pipe has `0 ≤ size ≤ 8` and whose reader file
has no call in flight, whatever its two status flags, file positions and writer call (in
particular from the pipe created by the writer's open, `size = 0`, before the reader's open
has set `status_reader = OPEN` and after it, and from any state reached later with the reader
idle), after every step of `disco_read`, `disco_write` and `disco_release` (failing and
cancelled calls included, and the steps that follow the close of either file) `0 ≤ size ≤ 8`;
and whenever a further step stores a byte it happens with `size < 8` and adds one to `size`,
whenever it delivers a byte it happens with `size > 0` and takes one from `size`. -/
theorem size_invariant (s0 s : Chan) (evs : List Ev)
    (hsize : 0 ≤ s0.pipe.size ∧ s0.pipe.size ≤ 8) (hidle : s0.rd = none)
    (hrun : s0.run evs = some s) :
    0 ≤ s.pipe.size ∧ s.pipe.size ≤ 8 ∧
    ∀ e s1, s.step e = some s1 →
      (0 ≤ s1.pipe.size ∧ s1.pipe.size ≤ 8) ∧
      (s1.accepted ≠ s.accepted → s.pipe.size < 8 ∧ s1.pipe.size = s.pipe.size + 1) ∧
      (s1.delivered ≠ s.delivered → 0 < s.pipe.size ∧ s1.pipe.size = s.pipe.size - 1) := by
  have h0 : s0.sized := by
    refine ⟨hsize.1, hsize.2, ?_⟩
    intro t ht
    rw [hidle] at ht
    exact absurd ht (by simp)
  have h := Chan.sized_run evs s0 s h0 hrun
  refine ⟨h.1, h.2.1, ?_⟩
  intro e s1 hs
  have h1 := Chan.sized_step s s1 e h hs
  exact ⟨⟨h1.1.1, h1.1.2.1⟩, h1.2⟩

/-- Witness of C4: on a new pipe whose reader has finished its open, three bytes are written,
the writer closes, the reader drains the pipe, reads end-of-stream and closes. -/
theorem size_invariant_witness :
    (Chan.start { newPipe with status_reader := Status.OPEN }).run drainEvents
      = some drainChan ∧
    drainChan.delivered = [65, 66, 67] ∧ drainChan.freed = true ∧
    0 ≤ drainChan.pipe.size ∧ drainChan.pipe.size ≤ 8 :=
  ⟨rfl, by decide, by decide,
   (size_invariant (Chan.start { newPipe with status_reader := Status.OPEN }) drainChan
      drainEvents (by decide) rfl rfl).1,
   (size_invariant (Chan.start { newPipe with status_reader := Status.OPEN }) drainChan
      drainEvents (by decide) rfl rfl).2.1⟩

/-! ## The ring as a FIFO queue -/

theorem ring_pop (b : Fin MAX_SIZE → Nat) (r n : Nat) :
    ring b r (n + 1) = b (slot r) :: ring b (r + 1) n := rfl

/-- One step of a read without copy fault takes the bytes it delivers from the front of the
queue, in order. -/
theorem rd_step_fifo (p : Pipe) (f : Int) (t : ReadCall)
    (hin : inRing t.out) (h0 : 0 ≤ p.size) (hs : t.sized p) (hub : t.pc ≠ RPc.ub)
    (hdone : t.pc ≠ RPc.done) :
    (rd_step false p f t).2.2.pc ≠ RPc.ub ∧ inRing (rd_step false p f t).2.2.out ∧
    t.dst ++ ring p.buffer t.out.toNat p.size.toNat =
      (rd_step false p f t).2.2.dst ++
        ring (rd_step false p f t).1.buffer (rd_step false p f t).2.2.out.toNat
          (rd_step false p f t).1.size.toNat ∧
    (t.out + p.size) % 8 = ((rd_step false p f t).2.2.out + (rd_step false p f t).1.size) % 8 ∧
    ((rd_step false p f t).2.2.pc = RPc.done →
      (rd_step false p f t).2.1 = (rd_step false p f t).2.2.out) ∧
    ((rd_step false p f t).2.2.pc ≠ RPc.done → (rd_step false p f t).2.1 = f) := by
  obtain ⟨count, out, k, dst, idx, pc⟩ := t
  obtain ⟨a1, a2⟩ := hs
  obtain ⟨i0, i8⟩ := hin
  simp only [] at a1 a2 i0 i8 hub hdone
  have hb := bufIndex_of_range out i0 i8
  have hm := tmod_succ out i0
  cases pc with
  | test =>
    simp only [rd_step]
    split <;> simp [inRing, i0, i8]
  | loop =>
    simp only [rd_step, hb, hm]
    split
    · rename_i hk
      have hpos : 0 < p.size := by have := a1 rfl; omega
      obtain ⟨n, hn⟩ : ∃ n : Nat, p.size.toNat = n + 1 := ⟨p.size.toNat - 1, by omega⟩
      have e1 : (p.size - 1).toNat = n := by omega
      have e2 : ring p.buffer ((out + 1) % 8).toNat n = ring p.buffer (out.toNat + 1) n :=
        ring_congr _ _ _ _ (by omega)
      simp only [Bool.false_eq_true, if_false, hn, e1, e2, ring_pop, List.append_assoc,
        List.singleton_append, inRing]
      refine ⟨by simp, by omega, trivial, by omega, by simp, by simp⟩
    · simp [inRing, i0, i8]
  | waiting => simp [rd_step, inRing, i0, i8]
  | done => exact absurd rfl hdone
  | ub => exact absurd rfl hub

/-- One step of a write that finds its byte stores it behind the queue. -/
theorem wr_step_fifo (b : Nat) (p : Pipe) (f : Int) (t : WriteCall) (r0 : Int)
    (hr : inRing r0) (h0 : 0 ≤ p.size) (h8 : p.size ≤ 8) (hin : t.inp = (r0 + p.size) % 8)
    (hub : t.pc ≠ WPc.ub) (hdone : t.pc ≠ WPc.done) :
    (wr_step (some b) p f t).2.2.pc ≠ WPc.ub ∧
    (wr_step (some b) p f t).2.2.inp = (r0 + (wr_step (some b) p f t).1.size) % 8 ∧
    (∃ l, (wr_step (some b) p f t).2.2.stored = t.stored ++ l ∧
      ring (wr_step (some b) p f t).1.buffer r0.toNat (wr_step (some b) p f t).1.size.toNat =
        ring p.buffer r0.toNat p.size.toNat ++ l) ∧
    ((wr_step (some b) p f t).2.2.pc = WPc.done →
      (wr_step (some b) p f t).2.1 = (wr_step (some b) p f t).2.2.inp) ∧
    ((wr_step (some b) p f t).2.2.pc ≠ WPc.done → (wr_step (some b) p f t).2.1 = f) := by
  obtain ⟨count, inp, k, stored, idx, pc⟩ := t
  obtain ⟨r0a, r0b⟩ := hr
  simp only [] at hin hub hdone
  have i0 : 0 ≤ inp := by omega
  have i8 : inp < 8 := by omega
  have hb : bufIndex inp = some (slot (r0.toNat + p.size.toNat)) := by
    rw [bufIndex_of_range inp i0 i8]
    exact congrArg some (slot_congr _ _ (by omega))
  have hm := tmod_succ inp i0
  cases pc with
  | loop =>
    simp only [wr_step]
    split <;> simp [hin]
  | test =>
    simp only [wr_step, hb, hm]
    split
    · simp [hin]
    · rename_i hfull
      have hlt : p.size < 8 := by
        have : ¬ p.size = 8 := hfull
        omega
      have e1 : (p.size + 1).toNat = p.size.toNat + 1 := by omega
      simp only [e1]
      refine ⟨by simp, by omega, ⟨[b], rfl, ?_⟩, by simp, by simp⟩
      exact ring_push p.buffer b p.size.toNat r0.toNat (by omega)
  | waiting => simp [wr_step, hin]
  | done => exact absurd rfl hdone
  | ub => exact absurd rfl hub


theorem Chan.rsettle_fifo (s : Chan) (p : Pipe) (f : Int) (t : ReadCall)
    (h0 : 0 ≤ p.size) (h8 : p.size ≤ 8) (hcur : inRing t.out)
    (hw : s.wcur = (t.out + p.size) % 8)
    (hq : s.accepted = s.rdone ++ (t.dst ++ ring p.buffer t.out.toNat p.size.toNat))
    (hpc : t.pc ≠ RPc.ub) (hsz : t.sized p) (hf : t.pc = RPc.done → f = t.out)
    (hwr : ∀ t1, s.wr = some t1 → t1.pc ≠ WPc.ub ∧ t1.pc ≠ WPc.done) :
    (s.rsettle p f t).fifo := by
  unfold Chan.fifo
  rw [Chan.rsettle_accepted, Chan.rsettle_delivered, Chan.rsettle_pipe]
  have hwc : (s.rsettle p f t).wcur = s.wcur := by
    unfold Chan.rsettle Chan.wcur
    cases t.pc <;> rfl
  have hwr1 : (s.rsettle p f t).wr = s.wr := by
    unfold Chan.rsettle
    cases t.pc <;> rfl
  have hrc : (s.rsettle p f t).rcur = t.out := by
    unfold Chan.rsettle Chan.rcur
    cases hp : t.pc <;> simp only []
    exact hf hp
  have hqu : (s.rsettle p f t).queue = ring p.buffer t.out.toNat p.size.toNat := by
    unfold Chan.queue
    rw [hrc, Chan.rsettle_pipe]
  rw [hwc, hrc, hqu, hwr1]
  refine ⟨h0, h8, hcur, hw, by rw [hq, List.append_assoc], ?_, hwr⟩
  intro t1 ht1
  unfold Chan.rsettle at ht1
  cases hp : t.pc <;> rw [hp] at ht1 <;> simp only [] at ht1 <;> cases ht1 <;>
    exact ⟨hpc, by simp [hp], hsz⟩

theorem Chan.wsettle_fifo (s : Chan) (p : Pipe) (f : Int) (t : WriteCall)
    (h0 : 0 ≤ p.size) (h8 : p.size ≤ 8) (hcur : inRing s.rcur)
    (hw : t.inp = (s.rcur + p.size) % 8)
    (hq : s.wdone ++ t.stored = s.delivered ++ ring p.buffer s.rcur.toNat p.size.toNat)
    (hpc : t.pc ≠ WPc.ub) (hf : t.pc = WPc.done → f = t.inp)
    (hrd : ∀ t1, s.rd = some t1 → t1.pc ≠ RPc.ub ∧ t1.pc ≠ RPc.done ∧ t1.sized p) :
    (s.wsettle p f t).fifo := by
  unfold Chan.fifo
  rw [Chan.wsettle_accepted, Chan.wsettle_delivered, Chan.wsettle_pipe]
  have hrc : (s.wsettle p f t).rcur = s.rcur := by
    unfold Chan.wsettle Chan.rcur
    cases t.pc <;> rfl
  have hrd1 : (s.wsettle p f t).rd = s.rd := by
    unfold Chan.wsettle
    cases t.pc <;> rfl
  have hwc : (s.wsettle p f t).wcur = t.inp := by
    unfold Chan.wsettle Chan.wcur
    cases hp : t.pc <;> simp only []
    exact hf hp
  have hqu : (s.wsettle p f t).queue = ring p.buffer s.rcur.toNat p.size.toNat := by
    unfold Chan.queue
    rw [hrc, Chan.wsettle_pipe]
  rw [hwc, hrc, hqu, hrd1]
  refine ⟨h0, h8, hcur, hw, hq, hrd, ?_⟩
  intro t1 ht1
  unfold Chan.wsettle at ht1
  cases hp : t.pc <;> rw [hp] at ht1 <;> simp only [] at ht1 <;> cases ht1 <;>
    exact ⟨hpc, by simp [hp]⟩


theorem Chan.fifo_step (s s1 : Chan) (e : Ev) (h : s.fifo) (hc : e.clean = true)
    (hs : s.step e = some s1) : s1.fifo := by
  obtain ⟨h0, h8, hcur, hw, hq, hrd, hwr⟩ := h
  cases e with
  | rcall ucount =>
    simp only [Chan.step] at hs
    split at hs
    · rename_i hg
      injection hs with hs
      subst hs
      have hnone : s.rd = none := by
        cases hx : s.rd with
        | none => rfl
        | some t => rw [hx] at hg; exact absurd hg.2.1 (by simp)
      have hpos : s.rcur = s.rpos := by simp only [Chan.rcur, hnone]
      have hdel : s.delivered = s.rdone ++ [] := by simp only [Chan.delivered, hnone]
      have hqu : s.queue = ring s.pipe.buffer s.rpos.toNat s.pipe.size.toNat := by
        simp only [Chan.queue, hpos]
      rw [hpos] at hcur hw
      have hconv : toInt32 s.rpos = s.rpos :=
        toInt32_of_small _ hcur.1 (by have := hcur.2; omega)
      refine ⟨h0, h8, ?_, ?_, ?_, ?_, hwr⟩
      · show inRing (toInt32 s.rpos)
        rw [hconv]; exact hcur
      · show s.wcur = (toInt32 s.rpos + s.pipe.size) % 8
        rw [hconv]; exact hw
      · show s.accepted = (s.rdone ++ []) ++
          ring s.pipe.buffer (toInt32 s.rpos).toNat s.pipe.size.toNat
        rw [hconv, hq, hdel, hqu]
      · intro t ht
        injection ht with ht
        subst ht
        exact ⟨by simp [rd_begin], by simp [rd_begin], by simp [rd_begin, ReadCall.sized]⟩
    · exact absurd hs (by simp)
  | wcall ucount =>
    simp only [Chan.step] at hs
    split at hs
    · rename_i hg
      injection hs with hs
      subst hs
      have hnone : s.wr = none := by
        cases hx : s.wr with
        | none => rfl
        | some t => rw [hx] at hg; exact absurd hg.2.1 (by simp)
      have hpos : s.wcur = s.wpos := by simp only [Chan.wcur, hnone]
      have hacc : s.accepted = s.wdone ++ [] := by simp only [Chan.accepted, hnone]
      have hwp : inRing s.wpos := by
        rw [← hpos, hw]
        have := hcur.1
        have := hcur.2
        unfold inRing
        omega
      have hconv : toInt32 s.wpos = s.wpos :=
        toInt32_of_small _ hwp.1 (by have := hwp.2; omega)
      refine ⟨h0, h8, hcur, ?_, ?_, hrd, ?_⟩
      · show toInt32 s.wpos = (s.rcur + s.pipe.size) % 8
        rw [hconv, ← hpos]; exact hw
      · show s.wdone ++ [] = s.delivered ++ s.queue
        rw [← hacc]; exact hq
      · intro t ht
        injection ht with ht
        subst ht
        exact ⟨by simp [wr_begin], by simp [wr_begin]⟩
    · exact absurd hs (by simp)
  | rstep fault =>
    have hfault : fault = false := by simpa [Ev.clean] using hc
    subst hfault
    simp only [Chan.step] at hs
    split at hs
    · rename_i t ht
      split at hs
      · injection hs with hs
        subst hs
        have hrc : s.rcur = t.out := by simp [Chan.rcur, ht]
        rw [hrc] at hcur hw
        obtain ⟨a1, a2, a3⟩ := hrd t ht
        obtain ⟨b1, b2, b3, b4, b5, _⟩ := rd_step_fifo s.pipe s.rpos t hcur h0 a3 a1 a2
        obtain ⟨c1, c2, c3, _⟩ := rd_step_sized false s.pipe s.rpos t h0 h8 a3
        refine Chan.rsettle_fifo s _ _ _ c1 c2 b2 (by rw [hw, b4]) ?_ b1 c3 b5 hwr
        rw [← b3, hq]
        simp [Chan.delivered, Chan.queue, ht, hrc]
      · exact absurd hs (by simp)
    · exact absurd hs (by simp)
  | wstep src =>
    obtain ⟨b, rfl⟩ : ∃ b, src = some b := by
      cases src with
      | none => exact absurd hc (by simp [Ev.clean])
      | some b => exact ⟨b, rfl⟩
    simp only [Chan.step] at hs
    split at hs
    · rename_i t ht
      split at hs
      · injection hs with hs
        subst hs
        have hwc : s.wcur = t.inp := by simp [Chan.wcur, ht]
        rw [hwc] at hw
        obtain ⟨a1, a2⟩ := hwr t ht
        obtain ⟨b1, b2, ⟨l, b3, b4⟩, b5, _⟩ :=
          wr_step_fifo b s.pipe s.wpos t s.rcur hcur h0 h8 hw a1 a2
        obtain ⟨c1, c2, c3, _⟩ := wr_step_sized (some b) s.pipe s.wpos t h0 h8
        refine Chan.wsettle_fifo s _ _ _ c1 c2 hcur b2 ?_ b1 b5 ?_
        · rw [b3, b4, ← List.append_assoc, ← List.append_assoc]
          congr 1
          simpa [Chan.accepted, Chan.queue, ht] using hq
        · intro t1 ht1
          obtain ⟨d1, d2, d3, d4⟩ := hrd t1 ht1
          exact ⟨d1, d2, fun hp => le_trans (d3 hp) c3, d4⟩
      · exact absurd hs (by simp)
    · exact absurd hs (by simp)
  | rwake intr =>
    have hintr : intr = false := by simpa [Ev.clean] using hc
    subst hintr
    simp only [Chan.step] at hs
    split at hs
    · rename_i t ht
      split at hs
      · rename_i hg
        injection hs with hs
        subst hs
        have hrc : s.rcur = t.out := by simp [Chan.rcur, ht]
        rw [hrc] at hcur hw
        obtain ⟨a1, a2, a3, a4⟩ := hrd t ht
        refine Chan.rsettle_fifo s _ _ _ h0 h8 hcur hw ?_ (by simp [rd_wake])
          (by simp [rd_wake, ReadCall.sized, a4, hg.2.2]) (by simp [rd_wake]) hwr
        simpa [Chan.delivered, Chan.queue, ht, hrc, rd_wake] using hq
      · exact absurd hs (by simp)
    · exact absurd hs (by simp)
  | wwake intr =>
    have hintr : intr = false := by simpa [Ev.clean] using hc
    subst hintr
    simp only [Chan.step] at hs
    split at hs
    · rename_i t ht
      split at hs
      · injection hs with hs
        subst hs
        have hwc : s.wcur = t.inp := by simp [Chan.wcur, ht]
        rw [hwc] at hw
        refine Chan.wsettle_fifo s _ _ _ h0 h8 hcur hw ?_ (by simp [wr_wake])
          (by simp [wr_wake]) hrd
        simpa [Chan.accepted, Chan.queue, ht, wr_wake] using hq
      · exact absurd hs (by simp)
    · exact absurd hs (by simp)
  | close r =>
    simp only [Chan.step] at hs
    split at hs
    · injection hs with hs
      subst hs
      have hsz : (release_pipe (decide (r = Role.writer)) (decide (r = Role.reader)) s.pipe).1.size
          = s.pipe.size := by
        unfold release_pipe
        simp only []
        split
        · rfl
        · split <;> rfl
      have hbuf : (release_pipe (decide (r = Role.writer)) (decide (r = Role.reader))
          s.pipe).1.buffer = s.pipe.buffer := by
        unfold release_pipe
        simp only []
        split
        · rfl
        · split <;> rfl
      refine ⟨by simp only [hsz]; exact h0, by simp only [hsz]; exact h8, hcur, ?_, ?_, ?_, hwr⟩
      · simpa [Chan.wcur, Chan.rcur, hsz] using hw
      · simpa [Chan.accepted, Chan.delivered, Chan.queue, Chan.rcur, hsz, hbuf] using hq
      · intro t ht
        obtain ⟨d1, d2, d3, d4⟩ := hrd t ht
        exact ⟨d1, d2, fun hp => by simp only [hsz]; exact d3 hp, d4⟩
    · exact absurd hs (by simp)

theorem Chan.fifo_run (evs : List Ev) :
    ∀ (s s1 : Chan), s.fifo → (∀ e ∈ evs, e.clean = true) → s.run evs = some s1 → s1.fifo := by
  induction evs with
  | nil =>
    intro s s1 h _ hr
    injection hr with hr
    subst hr
    exact h
  | cons e es ih =>
    intro s s1 h hc hr
    simp only [Chan.run] at hr
    split at hr
    · rename_i s2 hs2
      exact ih s2 s1 (Chan.fifo_step s s2 e h (hc e (List.mem_cons_self e es)) hs2)
        (fun e1 he1 => hc e1 (List.mem_cons_of_mem e he1)) hr
    · exact absurd hr (by simp)

theorem rd_step_shape (fault : Bool) (p : Pipe) (f : Int) (t : ReadCall) :
    (rd_step fault p f t).2.2.dst = t.dst ∨
    ∃ b, (rd_step fault p f t).2.2.dst = t.dst ++ [b] := by
  obtain ⟨count, out, k, dst, idx, pc⟩ := t
  cases pc <;> cases fault <;> simp only [rd_step] <;> (try split) <;> (try split) <;> simp

theorem wr_step_shape (src : Option Nat) (p : Pipe) (f : Int) (t : WriteCall) :
    (wr_step src p f t).2.2.stored = t.stored ∨
    ∃ b, (wr_step src p f t).2.2.stored = t.stored ++ [b] := by
  obtain ⟨count, inp, k, stored, idx, pc⟩ := t
  cases pc <;> cases src <;> simp only [wr_step] <;> (try split) <;> (try split) <;> simp

/-- A step of the channel leaves both histories as they are, or appends one byte to the
accepted bytes, or appends one byte to the delivered bytes. -/
theorem Chan.step_shape (s s1 : Chan) (e : Ev) (hs : s.step e = some s1) :
    (s1.accepted = s.accepted ∧ s1.delivered = s.delivered) ∨
    (∃ b, s1.accepted = s.accepted ++ [b] ∧ s1.delivered = s.delivered) ∨
    (∃ b, s1.delivered = s.delivered ++ [b] ∧ s1.accepted = s.accepted) := by
  cases e with
  | rcall ucount =>
    simp only [Chan.step] at hs
    split at hs
    · rename_i hg
      injection hs with hs
      subst hs
      have hnone : s.rd = none := by
        cases hx : s.rd with
        | none => rfl
        | some t => rw [hx] at hg; exact absurd hg.2.1 (by simp)
      left
      refine ⟨rfl, ?_⟩
      show s.rdone ++ [] = s.delivered
      simp only [Chan.delivered, hnone]
    · exact absurd hs (by simp)
  | wcall ucount =>
    simp only [Chan.step] at hs
    split at hs
    · rename_i hg
      injection hs with hs
      subst hs
      have hnone : s.wr = none := by
        cases hx : s.wr with
        | none => rfl
        | some t => rw [hx] at hg; exact absurd hg.2.1 (by simp)
      left
      refine ⟨?_, rfl⟩
      show s.wdone ++ [] = s.accepted
      simp only [Chan.accepted, hnone]
    · exact absurd hs (by simp)
  | rstep fault =>
    simp only [Chan.step] at hs
    split at hs
    · rename_i t ht
      split at hs
      · injection hs with hs
        subst hs
        have hd : s.delivered = s.rdone ++ t.dst := by simp only [Chan.delivered, ht]
        rw [Chan.rsettle_accepted, Chan.rsettle_delivered, hd]
        rcases rd_step_shape fault s.pipe s.rpos t with h | ⟨b, h⟩
        · left; rw [h]; exact ⟨rfl, rfl⟩
        · right; right; exact ⟨b, by rw [h, List.append_assoc], rfl⟩
      · exact absurd hs (by simp)
    · exact absurd hs (by simp)
  | wstep src =>
    simp only [Chan.step] at hs
    split at hs
    · rename_i t ht
      split at hs
      · injection hs with hs
        subst hs
        have hd : s.accepted = s.wdone ++ t.stored := by simp only [Chan.accepted, ht]
        rw [Chan.wsettle_accepted, Chan.wsettle_delivered, hd]
        rcases wr_step_shape src s.pipe s.wpos t with h | ⟨b, h⟩
        · left; rw [h]; exact ⟨rfl, rfl⟩
        · right; left; exact ⟨b, by rw [h, List.append_assoc], rfl⟩
      · exact absurd hs (by simp)
    · exact absurd hs (by simp)
  | rwake intr =>
    simp only [Chan.step] at hs
    split at hs
    · rename_i t ht
      split at hs
      · injection hs with hs
        subst hs
        have hd : s.delivered = s.rdone ++ t.dst := by simp only [Chan.delivered, ht]
        rw [Chan.rsettle_accepted, Chan.rsettle_delivered, hd]
        left
        cases intr <;> exact ⟨rfl, rfl⟩
      · exact absurd hs (by simp)
    · exact absurd hs (by simp)
  | wwake intr =>
    simp only [Chan.step] at hs
    split at hs
    · rename_i t ht
      split at hs
      · injection hs with hs
        subst hs
        have hd : s.accepted = s.wdone ++ t.stored := by simp only [Chan.accepted, ht]
        rw [Chan.wsettle_accepted, Chan.wsettle_delivered, hd]
        left
        cases intr <;> exact ⟨rfl, rfl⟩
      · exact absurd hs (by simp)
    · exact absurd hs (by simp)
  | close r =>
    simp only [Chan.step] at hs
    split at hs
    · injection hs with hs
      subst hs
      left
      exact ⟨rfl, rfl⟩
    · exact absurd hs (by simp)

/-- Between two states that satisfy the queue equation, a step is a step of the FIFO queue of
the spec on the queue, or leaves the queue as it is. -/
theorem Chan.fifo_simulation (s s1 : Chan) (e : Ev) (h : s.fifo) (h1 : s1.fifo)
    (hs : s.step e = some s1) :
    (s1.queue = s.queue ∧ s1.accepted = s.accepted ∧ s1.delivered = s.delivered) ∨
    (∃ b, s1.accepted = s.accepted ++ [b] ∧ s1.delivered = s.delivered ∧
      Fifo.step s.queue (FifoOp.enq b) = some s1.queue) ∨
    (∃ b, s1.delivered = s.delivered ++ [b] ∧ s1.accepted = s.accepted ∧
      Fifo.step s.queue (FifoOp.deq b) = some s1.queue) := by
  obtain ⟨_, _, _, _, hq, _, _⟩ := h
  obtain ⟨a0, a8, _, _, hq1, _, _⟩ := h1
  have hl1 : s1.queue.length = s1.pipe.size.toNat := ring_length _ _ _
  rcases Chan.step_shape s s1 e hs with ⟨ha, hd⟩ | ⟨b, ha, hd⟩ | ⟨b, hd, ha⟩
  · left
    rw [ha, hd, hq] at hq1
    exact ⟨(List.append_cancel_left hq1).symm, ha, hd⟩
  · right; left
    rw [ha, hd, hq, List.append_assoc] at hq1
    have hqq : s1.queue = s.queue ++ [b] := (List.append_cancel_left hq1).symm
    have hlen : s.queue.length < 8 := by
      have := congrArg List.length hqq
      simp at this
      omega
    exact ⟨b, ha, hd, by simp [Fifo.step, hlen, hqq]⟩
  · right; right
    rw [ha, hd, hq, List.append_assoc] at hq1
    have hqq : s.queue = b :: s1.queue := by
      have := List.append_cancel_left hq1
      simpa using this
    exact ⟨b, hd, ha, by simp [Fifo.step, hqq]⟩

/-- C2. Byte order is preserved over every history of successful calls: starting from an
empty pipe with both files at position 0, after any interleaving of steps of `disco_write`
and `disco_read` in which no copy fails and no wait is cancelled (writes may wait for the
reader to free space and then resume), the bytes accepted so far are the bytes delivered so
far followed by the queue (the `size` bytes at the reader's cursor), so the delivered bytes
are an initial segment of the accepted bytes; the queue holds `size`, at most 8, bytes; the
writer's cursor is `size` places ahead of the reader's in the ring; and every further such
step either leaves the queue and both histories as they are, or accepts a byte by an
enqueue of the FIFO queue of the spec, or delivers a byte by a dequeue of it. -/
theorem fifo_order (p : Pipe) (evs : List Ev) (s : Chan) (hempty : p.size = 0)
    (hclean : ∀ e ∈ evs, e.clean = true) (hrun : (Chan.start p).run evs = some s) :
    s.accepted = s.delivered ++ s.queue ∧
    (∃ rest, s.accepted = s.delivered ++ rest) ∧
    (s.queue.length : Int) = s.pipe.size ∧ s.queue.length ≤ 8 ∧
    s.wcur = (s.rcur + s.pipe.size) % 8 ∧
    ∀ e s1, e.clean = true → s.step e = some s1 →
      (s1.queue = s.queue ∧ s1.accepted = s.accepted ∧ s1.delivered = s.delivered) ∨
      (∃ b, s1.accepted = s.accepted ++ [b] ∧ s1.delivered = s.delivered ∧
        Fifo.step s.queue (FifoOp.enq b) = some s1.queue) ∨
      (∃ b, s1.delivered = s.delivered ++ [b] ∧ s1.accepted = s.accepted ∧
        Fifo.step s.queue (FifoOp.deq b) = some s1.queue) := by
  have h0 : (Chan.start p).fifo := by
    refine ⟨by simp [Chan.start, hempty], by simp [Chan.start, hempty],
      by simp [Chan.start, Chan.rcur, inRing],
      by simp [Chan.start, Chan.rcur, Chan.wcur, hempty],
      by simp [Chan.start, Chan.accepted, Chan.delivered, Chan.queue, hempty, ring], ?_, ?_⟩
    · intro t ht; exact absurd ht (by simp [Chan.start])
    · intro t ht; exact absurd ht (by simp [Chan.start])
  have hs := Chan.fifo_run evs _ s h0 hclean hrun
  have hs2 := hs
  obtain ⟨a0, a8, _, aw, aq, _, _⟩ := hs2
  have hl : s.queue.length = s.pipe.size.toNat := ring_length _ _ _
  refine ⟨aq, ⟨s.queue, aq⟩, by omega, by omega, aw, ?_⟩
  intro e s1 hc hstep
  exact Chan.fifo_simulation s s1 e hs (Chan.fifo_step s s1 e hs hc hstep) hstep

/-- Witness of C2: a history in which the write of nine bytes waits for the reader; the byte
1 was delivered and the bytes 2..9 are queued. -/
theorem fifo_order_witness :
    (Chan.start newPipe).run waitingEvents = some waitingChan ∧
    waitingChan.delivered = [1] ∧ waitingChan.queue = [2, 3, 4, 5, 6, 7, 8, 9] ∧
    waitingChan.accepted = waitingChan.delivered ++ waitingChan.queue :=
  ⟨rfl, by decide, by decide,
   (fifo_order newPipe waitingEvents waitingChan rfl (by decide) rfl).1⟩

/-! ## Failed transfers -/

/-- C9 (defect of the code). A transfer that fails after bytes were moved returns the error
code and keeps the changed `size`, but the file position, from which the next call of that
role starts, is not advanced: the `goto epilog` skips `*f_pos = in` / `*f_pos = out`.  Shown
for a write of three bytes whose third copy faults (`size = 2`, position still 0), a read of
two bytes whose second copy faults (`size = 1`, position still 0) and a write of nine bytes
cancelled in its wait after eight (`size = 8`, position still 0).  After the failed write of
65, 66, a write of 67 lands on index 0 again and a read of three bytes yields 67, 66, 0. -/
theorem failed_transfer_loses_cursor :
    -- a write of three bytes whose third byte cannot be read from user space
    (disco_write (fun i => if i < 2 then some (65 + i) else none) newPipe 0 3).2.2.pc = WPc.done ∧
    (disco_write (fun i => if i < 2 then some (65 + i) else none) newPipe 0 3).2.2.count
      = -EFAULT ∧
    (disco_write (fun i => if i < 2 then some (65 + i) else none) newPipe 0 3).1.size = 2 ∧
    (disco_write (fun i => if i < 2 then some (65 + i) else none) newPipe 0 3).2.1 = 0 ∧
    -- a read of two bytes whose second byte cannot be written to user space
    (disco_read (fun k => decide (k = 1))
      (disco_write (fun i => [65, 66][i]?) newPipe 0 2).1 0 2).2.2.count = -EFAULT ∧
    (disco_read (fun k => decide (k = 1))
      (disco_write (fun i => [65, 66][i]?) newPipe 0 2).1 0 2).1.size = 1 ∧
    (disco_read (fun k => decide (k = 1))
      (disco_write (fun i => [65, 66][i]?) newPipe 0 2).1 0 2).2.1 = 0 ∧
    -- a write of nine bytes that waits after the eighth and is then cancelled
    (disco_write (fun i => some i) newPipe 0 9).2.2.pc = WPc.waiting ∧
    (disco_write_resume (fun i => some i) true (disco_write (fun i => some i) newPipe 0 9).1
      (disco_write (fun i => some i) newPipe 0 9).2.1
      (disco_write (fun i => some i) newPipe 0 9).2.2).2.2.count = -EINTR ∧
    (disco_write_resume (fun i => some i) true (disco_write (fun i => some i) newPipe 0 9).1
      (disco_write (fun i => some i) newPipe 0 9).2.1
      (disco_write (fun i => some i) newPipe 0 9).2.2).1.size = 8 ∧
    (disco_write_resume (fun i => some i) true (disco_write (fun i => some i) newPipe 0 9).1
      (disco_write (fun i => some i) newPipe 0 9).2.1
      (disco_write (fun i => some i) newPipe 0 9).2.2).2.1 = 0 ∧
    -- after the failed write of 65, 66 a write of 67 and a read of three bytes
    (disco_read (fun _ => false)
      (disco_write (fun _ => some 67)
        (disco_write (fun i => if i < 2 then some (65 + i) else none) newPipe 0 3).1
        (disco_write (fun i => if i < 2 then some (65 + i) else none) newPipe 0 3).2.1 1).1
      0 3).2.2.dst = [67, 66, 0] := by
  decide

/-! ## Pairing and life cycle -/

theorem World.slotOk_of_opc (w : World) (f : Nat) (c : OPc) (h : w.slotOk)
    (hf : w.opc f ≠ OPc.waitReady) : ({ w with opc := upd w.opc f c } : World).slotOk := by
  intro n hn
  obtain ⟨a1, a2, a3⟩ := h n hn
  have hne : n ≠ f := by
    intro e
    rw [e] at a1
    exact hf a1
  exact ⟨by simp [upd, hne, a1], a2, a3⟩

theorem open_writer_slotOk (alloc : Bool) (w : World) (f : Nat) (h : w.slotOk)
    (hf : w.opc f ≠ OPc.waitReady) : (open_writer alloc w f).slotOk := by
  unfold open_writer
  split
  · exact World.slotOk_of_opc w f _ h hf
  · intro n hn
    unfold open_claim at hn
    cases alloc <;> simp at hn

theorem open_reader_slotOk (w : World) (f : Nat) (h : w.slotOk)
    (hf : w.opc f ≠ OPc.waitReady) : (open_reader w f).slotOk := by
  unfold open_reader
  split
  · exact World.slotOk_of_opc w f _ h hf
  · intro n hn
    simp only [Option.some.injEq] at hn
    subst hn
    simp [upd]

theorem open_reader_ready_slotOk (intr : Bool) (w : World) (f : Nat) (h : w.slotOk) :
    (open_reader_ready intr w f).slotOk := by
  unfold open_reader_ready
  split
  · intro n hn
    simp at hn
  · split
    · exact h
    · rename_i hst
      have hnf : ∀ n, w.pend_reader = some n → n ≠ f := by
        intro n hn e
        rw [e] at hn
        exact hst (h f hn).2.2
      split
      · exact h
      · split
        · intro n hn
          obtain ⟨a1, a2, a3⟩ := h n hn
          exact ⟨by simp [upd, hnf n hn, a1], a2, a3⟩
        · exact h
        · exact h

theorem disco_release_slotOk (w : World) (f : Nat) (h : w.slotOk) :
    (disco_release w f).slotOk := by
  unfold disco_release
  split
  · exact h
  · split
    · dsimp only
      split <;> exact h
    · exact h
    · exact h

theorem World.slotOk_step (w w1 : World) (e : WEv) (h : w.slotOk) (hs : w.step e = some w1) :
    w1.slotOk := by
  cases e with
  | openCall f alloc =>
    simp only [World.step] at hs
    split at hs
    · rename_i hg
      injection hs with hs
      subst hs
      have hf : w.opc f ≠ OPc.waitReady := by rw [hg.2]; decide
      unfold disco_open
      split
      · exact open_writer_slotOk alloc w f h hf
      · split
        · exact open_reader_slotOk w f h hf
        · exact World.slotOk_of_opc w f _ h hf
    · exact absurd hs (by simp)
  | openWake f intr alloc =>
    simp only [World.step] at hs
    split at hs
    · injection hs with hs
      subst hs
      unfold disco_open_wake
      split
      · rename_i hp
        have hf : w.opc f ≠ OPc.waitReady := by rw [hp]; decide
        split
        · exact World.slotOk_of_opc w f _ h hf
        · exact open_writer_slotOk alloc w f h hf
      · rename_i hp
        have hf : w.opc f ≠ OPc.waitReady := by rw [hp]; decide
        split
        · exact World.slotOk_of_opc w f _ h hf
        · exact open_reader_slotOk w f h hf
      · exact open_reader_ready_slotOk intr w f h
      · exact h
    · exact absurd hs (by simp)
  | release f =>
    simp only [World.step] at hs
    split at hs
    · injection hs with hs
      subst hs
      exact disco_release_slotOk w f h
    · exact absurd hs (by simp)

theorem World.slotOk_run (evs : List WEv) :
    ∀ (w w1 : World), w.slotOk → w.run evs = some w1 → w1.slotOk := by
  induction evs with
  | nil =>
    intro w w1 h hr
    injection hr with hr
    subst hr
    exact h
  | cons e es ih =>
    intro w w1 h hr
    simp only [World.run] at hr
    split at hr
    · rename_i w2 hw2
      exact ih w2 w1 (World.slotOk_step w w2 e h hw2) hr
    · exact absurd hr (by simp)

/-- C6. Pairing postcondition: in every state the driver reaches from `disco_init`, a writer
(entering `disco_open` or woken in it) that finds the slot pointing to a node `n` finds the
node of the waiting reader `n`; with `kmalloc` succeeding it empties the slot, allocates
exactly one pipe (the heap changes at the fresh address only) with `size = 0`,
`status_writer = OPEN`, `status_reader = CLOSED`, stores its address in the private data of
its own file and of the reader's file, marks the node `READY` and returns 0, all in the one
step that holds the global mutex; the reader, once woken, returns 0 with the same pipe in its
private data and has set `status_reader = OPEN`. -/
theorem pairing_postcondition (writes : Nat → Bool) (evs : List WEv) (w : World) (f n : Nat)
    (hreach : (World.boot writes).run evs = some w)
    (hslot : w.pend_reader = some n) (hmode : (w.file f).fmode_write = true)
    (hcaller : w.opc f = OPc.idle ∨ w.opc f = OPc.waitReader) :
    (w.node n).reader = n ∧ w.opc n = OPc.waitReady ∧
    disco_open true w f = open_writer true w f ∧
    (w.opc f = OPc.waitReader → disco_open_wake true false w f = open_writer true w f) ∧
    (open_writer true w f).pend_reader = none ∧
    (open_writer true w f).brk = w.brk + 1 ∧
    (open_writer true w f).heap w.brk = Cell.live newPipe ∧
    (∀ a, a ≠ w.brk → (open_writer true w f).heap a = w.heap a) ∧
    newPipe.size = 0 ∧ newPipe.status_writer = Status.OPEN ∧
    newPipe.status_reader = Status.CLOSED ∧
    ((open_writer true w f).file f).private_data = some w.brk ∧
    ((open_writer true w f).file (w.node n).reader).private_data = some w.brk ∧
    ((open_writer true w f).node n).status = NodeStatus.READY ∧
    (open_writer true w f).opc f = OPc.returned 0 ∧
    (open_writer true w f).fault = w.fault ∧
    (disco_open_wake true false (open_writer true w f) n).opc n = OPc.returned 0 ∧
    ((disco_open_wake true false (open_writer true w f) n).file n).private_data
      = ((disco_open_wake true false (open_writer true w f) n).file f).private_data ∧
    (disco_open_wake true false (open_writer true w f) n).heap w.brk
      = Cell.live { newPipe with status_reader := Status.OPEN } := by
  have h0 : (World.boot writes).slotOk := by
    intro n hn
    simp [World.boot] at hn
  obtain ⟨hwait, hnode, _⟩ := World.slotOk_run evs _ w h0 hreach n hslot
  have hne : n ≠ f := by
    intro e
    rw [e] at hwait
    rcases hcaller with h | h <;> rw [h] at hwait <;> exact absurd hwait (by decide)
  have hne2 : f ≠ n := fun e => hne e.symm
  refine ⟨hnode, hwait, by simp [disco_open, hmode], ?_, ?_⟩
  · intro h
    simp [disco_open_wake, h]
  · simp [open_writer, hslot, open_claim, hnode, setPrivate, upd, hne, hne2, disco_open_wake,
      hwait, open_reader_ready, newPipe]
    intro a h1 h2
    exact absurd h2 h1

/-- Witness of C6: after `disco_init`, file 1 opens for reading and publishes its node, then
file 2 opens for writing. -/
theorem pairing_postcondition_witness :
    (World.boot sampleModes).run [WEv.openCall 1 true]
      = some (disco_open true (World.boot sampleModes) 1) ∧
    (open_writer true (disco_open true (World.boot sampleModes) 1) 2).pend_reader = none ∧
    ((open_writer true (disco_open true (World.boot sampleModes) 1) 2).file 2).private_data
      = some 1 :=
  ⟨rfl,
   (pairing_postcondition sampleModes [WEv.openCall 1 true]
      (disco_open true (World.boot sampleModes) 1) 2 1 rfl rfl rfl (Or.inl rfl)).2.2.2.2.1,
   (pairing_postcondition sampleModes [WEv.openCall 1 true]
      (disco_open true (World.boot sampleModes) 1) 2 1 rfl rfl rfl
      (Or.inl rfl)).2.2.2.2.2.2.2.2.2.2.2.1⟩

/-- C7 (defect of the code). Reader 1 publishes its node, writer 2 claims it, reader 3
publishes its node; the slot then points to the node of reader 3.  When the wait of reader 1
is cancelled, `disco_open` returns `-EINTR` and line 149 empties the slot although it did not
point to the node of reader 1: reader 3 keeps waiting with its node no longer published. -/
theorem cancelled_reader_clears_foreign_slot :
    ((World.boot sampleModes).run
        [WEv.openCall 1 true, WEv.openCall 2 true, WEv.openCall 3 true]).map
      (fun w => (w.pend_reader, w.opc 1, w.opc 3, (w.node 1).status))
      = some (some 3, OPc.waitReady, OPc.waitReady, NodeStatus.READY) ∧
    ((World.boot sampleModes).run
        [WEv.openCall 1 true, WEv.openCall 2 true, WEv.openCall 3 true,
         WEv.openWake 1 true true]).map
      (fun w => (w.pend_reader, w.opc 1, w.opc 3))
      = some (none, OPc.returned (-EINTR), OPc.waitReady) := by
  decide

/-- C8 (defect of the code). With a pending reader and `kmalloc` returning the null pointer,
the writer branch of `disco_open` has emptied the slot and writes through the null pointer at
line 121; the call does not return an error. -/
theorem failed_allocation_is_dereferenced :
    ((World.boot sampleModes).run [WEv.openCall 1 true, WEv.openCall 2 false]).map
      (fun w => (w.fault, w.opc 2, w.pend_reader))
      = some (some Fault.nullDeref, OPc.idle, none) := by
  decide

/-- C5 (defect of the code). Reader 1 publishes its node and writer 2 claims it; the new pipe
has `status_reader = CLOSED`.  If the writer closes before the reader's `disco_open` resumes,
this first close call finds both flags `CLOSED` and frees the pipe, although the reader file
has not been released; the reader's `disco_open` then writes `status_reader` into the freed
pipe. -/
theorem writer_close_frees_before_reader_opens :
    ((World.boot sampleModes).run
        [WEv.openCall 1 true, WEv.openCall 2 true, WEv.release 2]).map
      (fun w => ((w.heap 1).isFreed, w.kfrees 1, w.opc 1, w.released 1, w.fault))
      = some (true, 1, OPc.waitReady, false, none) ∧
    ((World.boot sampleModes).run
        [WEv.openCall 1 true, WEv.openCall 2 true, WEv.release 2,
         WEv.openWake 1 false true]).map
      (fun w => w.fault) = some (some Fault.useAfterFree) := by
  decide

end Disco
